import Mathlib

/-!
Verification of the ts-bridge LSP/tsserver bridge against its specification.

This file shallowly embeds the parts of the program the claims are about:

* `RequestQueue` (src/rpc/queue.rs): the per-child priority queue.
* Coordinate conversions (src/utils/mod.rs): 0-based LSP positions vs
  1-based tsserver positions, with `u32` arithmetic made explicit as
  `% 2^32` and saturating subtraction as truncated `Nat` subtraction.
* The document store (src/documents.rs): UTF-16 line metrics, incremental
  edits and `span_for_range`.
* `Service::dispatch_request` (src/rpc/mod.rs): routing to the syntax and
  semantic children.
* `PendingRequests` (src/server.rs): the pending-requests table with its
  `track`, `resolve` and `fail_all` operations.
* `DiagnosticsState` / `StepProgress` / `FileDiagnostics` (src/server.rs):
  the per-session diagnostics aggregator.

JSON payloads are embedded by their observed projections: the fields the
code actually reads become `Option`-valued record fields, and values the
code merely passes through (adapter results, contexts, diagnostics,
URIs) are opaque tokens.  Hash maps are embedded as association lists
with insert-replaces-key semantics; iteration order of a map is the list
order (no claim below depends on a particular map iteration order).
-/

namespace TsBridge

/-! ## Request queue (src/rpc/queue.rs) -/

/-- `Priority` from src/rpc/queue.rs. -/
inductive Priority where
  | Low
  | Normal
  | Const
deriving DecidableEq, Repr

/-- `Request` from src/rpc/queue.rs.  The JSON payload is opaque here
(`assign_seq` writes the assigned seq into the payload object; the queue
claims are about ordering, so the payload is carried as a token and the
assigned seq is the `seq` field). -/
structure Request where
  seq : Nat
  payload : Nat
  priority : Priority
deriving DecidableEq, Repr

/-- `RequestQueue` from src/rpc/queue.rs: a monotonic seq counter plus a
`VecDeque` of requests, embedded as a list whose head is the deque front. -/
structure RequestQueue where
  seq : Nat
  queue : List Request
deriving DecidableEq, Repr

/-- Rust's `Iterator::rposition`: index (from the front) of the last
element satisfying the predicate. -/
def rposition (p : Request → Bool) : List Request → Option Nat
  | [] => none
  | x :: xs =>
    match rposition p xs with
    | some i => some (i + 1)
    | none => if p x then some 0 else none

/-- `VecDeque::insert idx`: insert so the element ends up at index `idx`
(for `idx ≤ length`, which is the only way the code calls it). -/
def insertAt (a : Request) : Nat → List Request → List Request
  | 0, l => a :: l
  | _ + 1, [] => [a]
  | n + 1, x :: xs => x :: insertAt a n xs

/-- `RequestQueue::enqueue`: assign the next seq, then insert by priority:
`Const` at the front, `Low` at the back, `Normal` just after the last
`Const` entry (index 0 when there is none). -/
def RequestQueue.enqueue (q : RequestQueue) (payload : Nat) (priority : Priority) :
    Nat × RequestQueue :=
  let seq := q.seq
  let request : Request := ⟨seq, payload, priority⟩
  let queue' :=
    match priority with
    | .Const => request :: q.queue
    | .Low => q.queue ++ [request]
    | .Normal =>
      let idx := ((rposition (fun r => r.priority == .Const) q.queue).map (· + 1)).getD 0
      insertAt request idx q.queue
  (seq, { seq := q.seq + 1, queue := queue' })

/-- `RequestQueue::dequeue`: pop the front. -/
def RequestQueue.dequeue : RequestQueue → Option (Request × RequestQueue)
  | ⟨_, []⟩ => none
  | ⟨s, r :: rest⟩ => some (r, ⟨s, rest⟩)

/-- `RequestQueue::default()`. -/
def RequestQueue.empty : RequestQueue := ⟨0, []⟩

/-- The requests `dequeue` pops, front to back. -/
def drainGo : List Request → List Request
  | [] => []
  | r :: rest => r :: drainGo rest

/-- Repeated `dequeue` until the queue is empty. -/
def RequestQueue.drain (q : RequestQueue) : List Request :=
  drainGo q.queue

/-- Enqueue a whole list of `(payload, priority)` pairs in order. -/
def enqueueAll (q : RequestQueue) : List (Nat × Priority) → RequestQueue
  | [] => q
  | (p, pr) :: rest => enqueueAll (q.enqueue p pr).2 rest

/-- The requests a sequence of enqueues constructs, with the seqs the
counter assigns starting from `s`. -/
def mkRequests : List (Nat × Priority) → Nat → List Request
  | [], _ => []
  | (p, pr) :: rest, s => ⟨s, p, pr⟩ :: mkRequests rest (s + 1)

/-! ## Coordinate conversions (src/utils/mod.rs)

`Position` uses `u32` fields; `u32` addition is embedded as `% 2^32`
(release-mode wrapping semantics) and `saturating_sub` on `Nat` is plain
truncated subtraction. -/

/-- LSP `Position` (src/types/mod.rs): 0-based `u32` line/character. -/
structure Position where
  line : Nat
  character : Nat
deriving DecidableEq, Repr

/-- LSP `Range` (src/types/mod.rs). -/
structure Range where
  start : Position
  «end» : Position
deriving DecidableEq, Repr

/-- `TsserverPosition` (src/utils/mod.rs): 1-based `u32` line/offset. -/
structure TsserverPosition where
  line : Nat
  offset : Nat
deriving DecidableEq, Repr

/-- `TsserverRange` (src/utils/mod.rs). -/
structure TsserverRange where
  start : TsserverPosition
  «end» : TsserverPosition
deriving DecidableEq, Repr

/-- `lsp_position_to_tsserver`: `line + 1`, `character + 1` in `u32`. -/
def lsp_position_to_tsserver (p : Position) : TsserverPosition :=
  ⟨(p.line + 1) % 2 ^ 32, (p.character + 1) % 2 ^ 32⟩

/-- `lsp_range_to_tsserver`. -/
def lsp_range_to_tsserver (r : Range) : TsserverRange :=
  ⟨lsp_position_to_tsserver r.start, lsp_position_to_tsserver r.«end»⟩

/-- `tsserver_position_value` on a value whose `line`/`offset` fields hold
the given `u64` numbers: truncate to `u32` (`as u32`), then
`saturating_sub 1`. -/
def tsserver_position_value (line offset : Nat) : Position :=
  ⟨line % 2 ^ 32 - 1, offset % 2 ^ 32 - 1⟩

/-- `tsserver_range_from_value` applied to the two converted positions. -/
def tsserver_range_from_value (start «end» : TsserverPosition) : Range :=
  ⟨tsserver_position_value start.line start.offset,
   tsserver_position_value «end».line «end».offset⟩

/-! ## Document store (src/documents.rs)

The document text is embedded as a `List Char` (Rust scans the UTF-8
bytes, but both line terminators are single-byte characters that never
occur inside a multi-byte UTF-8 sequence, so the byte scan splits exactly
at these characters; byte positions are tracked through `Char.utf8Size`).
-/

/-- Rust `char::len_utf16`: 1 for BMP scalars, 2 for supplementary plane. -/
def charUtf16 (c : Char) : Nat :=
  if c.toNat < 0x10000 then 1 else 2

/-- UTF-16 code-unit length of a text (`str::encode_utf16().count()`). -/
def utf16Len (l : List Char) : Nat :=
  (l.map charUtf16).sum

/-- UTF-8 byte length of a text (`str::len`). -/
def utf8Len (l : List Char) : Nat :=
  (l.map Char.utf8Size).sum

/-- `LineMetrics` from src/documents.rs. -/
structure LineMetrics where
  start_byte : Nat
  start_utf16 : Nat
  content_bytes : Nat
  content_utf16 : Nat
deriving DecidableEq, Repr

/-- `LineMetrics::empty()`. -/
def LineMetrics.emptyMetric : LineMetrics := ⟨0, 0, 0, 0⟩

/-- The scanning loop of `DocumentState::recompute_metrics`, one character
at a time.  `lsb`/`lsu` are the byte (usize) and UTF-16 (`u32`) offsets of
the current line start, `ab`/`au` the byte extent and exact UTF-16 count
of the content scanned on the current line so far (`au` models the
`usize` result of `encode_utf16().count()`).  On each line emission the
source casts the count with `as u32` — embedded as `% 2^32` — and
advances the cursor with `utf16_offset.saturating_add(content_utf16 +
newline_utf16)`, whose inner `u32` addition wraps in release mode
(`% 2^32`) and whose outer addition saturates at `2^32 - 1` (`min`).
Returns the `(metrics, newline_utf16)` pairs the loop pushes (the
terminator width is a loop local in the source, kept here so the spec's
per-line sum can be stated) and the final value of the `utf16_offset`
cursor. -/
def scanLines : List Char → Nat → Nat → Nat → Nat → List (LineMetrics × Nat) × Nat
  | [], lsb, lsu, ab, au =>
    if ab = 0 then ([], lsu)
    else ([(⟨lsb, lsu, ab, au % 2 ^ 32⟩, 0)], min (lsu + au % 2 ^ 32) (2 ^ 32 - 1))
  | '\r' :: '\n' :: rest, lsb, lsu, ab, au =>
    let r := scanLines rest (lsb + ab + 2)
      (min (lsu + (au % 2 ^ 32 + 2) % 2 ^ 32) (2 ^ 32 - 1)) 0 0
    ((⟨lsb, lsu, ab, au % 2 ^ 32⟩, 2) :: r.1, r.2)
  | '\r' :: rest, lsb, lsu, ab, au =>
    let r := scanLines rest (lsb + ab + 1)
      (min (lsu + (au % 2 ^ 32 + 1) % 2 ^ 32) (2 ^ 32 - 1)) 0 0
    ((⟨lsb, lsu, ab, au % 2 ^ 32⟩, 1) :: r.1, r.2)
  | '\n' :: rest, lsb, lsu, ab, au =>
    let r := scanLines rest (lsb + ab + 1)
      (min (lsu + (au % 2 ^ 32 + 1) % 2 ^ 32) (2 ^ 32 - 1)) 0 0
    ((⟨lsb, lsu, ab, au % 2 ^ 32⟩, 1) :: r.1, r.2)
  | c :: rest, lsb, lsu, ab, au =>
    scanLines rest lsb lsu (ab + c.utf8Size) (au + charUtf16 c)

/-- `text.ends_with('\n') || text.ends_with('\r')`. -/
def endsWithTerm (text : List Char) : Bool :=
  match text.getLast? with
  | some '\n' => true
  | some '\r' => true
  | _ => false

/-- `DocumentState::recompute_metrics`: scan the text into per-line
metrics, then push an empty metric when no line was produced, or an empty
trailing metric when the text ends in a line terminator.  Returns the new
`line_metrics` and `total_utf16`. -/
def recomputeMetrics (text : List Char) : List LineMetrics × Nat :=
  let r := scanLines text 0 0 0 0
  let metrics := r.1.map Prod.fst
  let metrics' :=
    if metrics.isEmpty then [LineMetrics.emptyMetric]
    else if endsWithTerm text then metrics ++ [⟨utf8Len text, r.2, 0, 0⟩]
    else metrics
  (metrics', r.2)

/-- `DocumentState` from src/documents.rs. -/
structure DocumentState where
  text : List Char
  line_metrics : List LineMetrics
  total_utf16 : Nat
  version : Option Int

/-- `DocumentState::new`. -/
def DocumentState.new (text : List Char) (version : Option Int) : DocumentState :=
  { text := text
    line_metrics := (recomputeMetrics text).1
    total_utf16 := (recomputeMetrics text).2
    version := version }

/-- An incremental change event (src/types/mod.rs
`TextDocumentContentChangeEvent`): optional replaced range plus new text. -/
structure ContentChange where
  range : Option Range
  text : List Char
deriving Repr

/-- `DocumentState::clamp_line_idx`. -/
def clampLineIdx (ms : List LineMetrics) (line : Nat) : Nat :=
  if ms.isEmpty then 0 else min line (ms.length - 1)

/-- Drop the characters covered by the first `n` bytes (only called at
positions that fall on character boundaries, as in the source). -/
def dropBytes : List Char → Nat → List Char
  | l, 0 => l
  | [], _ + 1 => []
  | c :: cs, n + 1 => dropBytes cs (n + 1 - c.utf8Size)

/-- Take the characters covered by the first `n` bytes. -/
def takeBytes : List Char → Nat → List Char
  | _, 0 => []
  | [], _ + 1 => []
  | c :: cs, n + 1 => c :: takeBytes cs (n + 1 - c.utf8Size)

/-- The byte-walking loop of `DocumentState::byte_index`: consume whole
characters while their UTF-16 width fits in the remaining budget, and
return the bytes consumed. -/
def walkBytes : List Char → Nat → Nat
  | [], _ => 0
  | c :: cs, remaining =>
    if remaining = 0 then 0
    else if remaining < charUtf16 c then 0
    else c.utf8Size + walkBytes cs (remaining - charUtf16 c)

/-- `DocumentState::byte_index`. -/
def DocumentState.byteIndex (st : DocumentState) (p : Position) : Nat :=
  let li := clampLineIdx st.line_metrics p.line
  let lm := st.line_metrics.getD li LineMetrics.emptyMetric
  let lineText := takeBytes (dropBytes st.text lm.start_byte) lm.content_bytes
  lm.start_byte + walkBytes lineText (min p.character lm.content_utf16)

/-- `DocumentState::apply_change`: splice the replaced byte range (or
replace the whole text), dropping out-of-bounds edits unchanged, then
recompute the line metrics. -/
def DocumentState.applyChange (st : DocumentState) (change : ContentChange) : DocumentState :=
  match change.range with
  | some range =>
    let start := st.byteIndex range.start
    let stop := st.byteIndex range.«end»
    if start > stop ∨ stop > utf8Len st.text then st
    else
      let newText := takeBytes st.text start ++ change.text ++ dropBytes st.text stop
      { st with
          text := newText
          line_metrics := (recomputeMetrics newText).1
          total_utf16 := (recomputeMetrics newText).2 }
  | none =>
    { st with
        text := change.text
        line_metrics := (recomputeMetrics change.text).1
        total_utf16 := (recomputeMetrics change.text).2 }

/-- `TextSpan` from src/documents.rs. -/
structure TextSpan where
  start : Nat
  length : Nat
deriving DecidableEq, Repr

/-- `DocumentState::utf16_offset`: clamp the line, clamp the character to
the line's UTF-16 content length, and offset from the line start.  The
`line.start_utf16 + column` addition is an unchecked `u32` add in the
source, embedded with release-mode wrapping (`% 2^32`), as in the
coordinate conversions. -/
def DocumentState.utf16Offset (st : DocumentState) (p : Position) : Nat :=
  let li := clampLineIdx st.line_metrics p.line
  let lm := st.line_metrics.getD li LineMetrics.emptyMetric
  (lm.start_utf16 + min p.character lm.content_utf16) % 2 ^ 32

/-- `DocumentState::text_span`. -/
def DocumentState.textSpan (st : DocumentState) (range : Range) : TextSpan :=
  let start := st.utf16Offset range.start
  let stop := st.utf16Offset range.«end»
  if stop ≥ start then ⟨start, stop - start⟩ else ⟨stop, start - stop⟩

/-- Association-list lookup with first-match semantics (the embedding of
`HashMap` lookups; inserts below keep keys unique). -/
def findA {κ ν : Type} [DecidableEq κ] : List (κ × ν) → κ → Option ν
  | [], _ => none
  | p :: rest, k => if p.1 = k then some p.2 else findA rest k

/-- `HashMap::remove`: drop the entry with the given key. -/
def eraseA {κ ν : Type} [DecidableEq κ] (m : List (κ × ν)) (k : κ) : List (κ × ν) :=
  m.filter fun p => decide (p.1 ≠ k)

/-- `HashMap::insert`: replace any existing entry with the given key. -/
def insertA {κ ν : Type} [DecidableEq κ] (m : List (κ × ν)) (k : κ) (v : ν) : List (κ × ν) :=
  (k, v) :: eraseA m k

/-- `DocumentStore` from src/documents.rs: URI → snapshot. -/
structure DocumentStore where
  docs : List (String × DocumentState)

/-- `DocumentStore::default()`. -/
def DocumentStore.empty : DocumentStore := ⟨[]⟩

/-- `DocumentStore::open`: insert or replace the snapshot. -/
def DocumentStore.open (store : DocumentStore) (uri : String) (text : List Char)
    (version : Option Int) : DocumentStore :=
  ⟨insertA store.docs uri (DocumentState.new text version)⟩

/-- `DocumentStore::apply_changes`: warn-and-ignore when the document is
unknown; otherwise apply the changes in order and update the version. -/
def DocumentStore.applyChanges (store : DocumentStore) (uri : String)
    (changes : List ContentChange) (version : Option Int) : DocumentStore :=
  match findA store.docs uri with
  | none => store
  | some st =>
    let st' := changes.foldl DocumentState.applyChange st
    ⟨insertA store.docs uri { st' with version := version }⟩

/-- `DocumentStore::close`. -/
def DocumentStore.close (store : DocumentStore) (uri : String) : DocumentStore :=
  ⟨eraseA store.docs uri⟩

/-- `DocumentStore::span_for_range`. -/
def DocumentStore.spanForRange (store : DocumentStore) (uri : String) (range : Range) :
    Option TextSpan :=
  (findA store.docs uri).map fun doc => doc.textSpan range

/-- The per-position offset as the spec words it: clamp the line to the
last metric, clamp the character to that line's `content_utf16`, and
return `start_utf16 + min(character, content_utf16)`. -/
def specOffset (ms : List LineMetrics) (p : Position) : Nat :=
  let lm := ms.getD (min p.line (ms.length - 1)) LineMetrics.emptyMetric
  lm.start_utf16 + min p.character lm.content_utf16

/-- `span_for_range` as the spec words it: convert both positions with
`specOffset` and return the span `(min(start, end), |end - start|)`;
nothing when the document has not been opened. -/
def spanForRangeSpec (store : DocumentStore) (uri : String) (range : Range) :
    Option TextSpan :=
  (findA store.docs uri).map fun doc =>
    let s := specOffset doc.line_metrics range.start
    let e := specOffset doc.line_metrics range.«end»
    ⟨min s e, max s e - min s e⟩

/-- The line-metrics invariant of §3 of the spec: the per-line
`content_utf16` plus terminator widths sum to the document's UTF-16
length, that sum is the stored total, the stored metrics are the ones
recomputed from the current text, and a text ending in a line terminator
carries an extra empty trailing metric starting at the text's end. -/
def MetricsInv (st : DocumentState) : Prop :=
  ((scanLines st.text 0 0 0 0).1.map fun x => x.1.content_utf16 + x.2).sum
      = utf16Len st.text ∧
  st.total_utf16 = utf16Len st.text ∧
  st.line_metrics = (recomputeMetrics st.text).1 ∧
  (endsWithTerm st.text = true →
    st.line_metrics
      = (scanLines st.text 0 0 0 0).1.map Prod.fst
          ++ [⟨utf8Len st.text, utf16Len st.text, 0, 0⟩])

/-! ## Request dispatch (src/rpc/mod.rs)

The spawned child processes and their stdin are external collaborators;
what matters to the dispatch claims is whether the semantic child exists
(`self.semantic.is_some()`), the two queues, and which payloads get
flushed to which child.  Writes are recorded in per-child logs. -/

/-- `ServerKind` from src/process/mod.rs. -/
inductive ServerKind where
  | Syntax
  | Semantic
deriving DecidableEq, Repr

/-- `DispatchReceipt` from src/rpc/mod.rs. -/
structure DispatchReceipt where
  server : ServerKind
  seq : Nat
deriving DecidableEq, Repr

/-- `Route` from src/rpc/mod.rs. -/
inductive Route where
  | Syntax
  | Semantic
  | Both
deriving DecidableEq, Repr

/-- The queue/child state of `Service` (src/rpc/mod.rs).
`semanticEnabled` embeds `self.semantic.is_some()`; `syntaxWritten` /
`semanticWritten` record the requests flushed to each child's stdin. -/
structure Service where
  semanticEnabled : Bool
  syntaxQueue : RequestQueue
  semanticQueue : RequestQueue
  syntaxWritten : List Request
  semanticWritten : List Request
deriving Repr

/-- `Service::flush_queue`: drain the queue, writing each request to the
child (requests drained on the semantic side with no child are dropped). -/
def Service.flushQueue (s : Service) (kind : ServerKind) : Service :=
  match kind with
  | .Syntax =>
    { s with
        syntaxQueue := ⟨s.syntaxQueue.seq, []⟩
        syntaxWritten := s.syntaxWritten ++ s.syntaxQueue.drain }
  | .Semantic =>
    { s with
        semanticQueue := ⟨s.semanticQueue.seq, []⟩
        semanticWritten :=
          s.semanticWritten ++ if s.semanticEnabled then s.semanticQueue.drain else [] }

/-- `Service::dispatch_request`: enqueue on the routed queues, flush each
after its enqueue, and return one receipt per side actually dispatched. -/
def Service.dispatchRequest (s : Service) (route : Route) (payload : Nat)
    (priority : Priority) : List DispatchReceipt × Service :=
  match route with
  | .Syntax =>
    let (seq, q') := s.syntaxQueue.enqueue payload priority
    let s' := Service.flushQueue { s with syntaxQueue := q' } .Syntax
    ([⟨.Syntax, seq⟩], s')
  | .Semantic =>
    if s.semanticEnabled then
      let (seq, q') := s.semanticQueue.enqueue payload priority
      let s' := Service.flushQueue { s with semanticQueue := q' } .Semantic
      ([⟨.Semantic, seq⟩], s')
    else
      ([], s)
  | .Both =>
    let (seq, q') := s.syntaxQueue.enqueue payload priority
    let s1 := Service.flushQueue { s with syntaxQueue := q' } .Syntax
    if s1.semanticEnabled then
      let (semSeq, q2) := s1.semanticQueue.enqueue payload priority
      let s2 := Service.flushQueue { s1 with semanticQueue := q2 } .Semantic
      ([⟨.Syntax, seq⟩, ⟨.Semantic, semSeq⟩], s2)
    else
      ([⟨.Syntax, seq⟩], s1)

/-! ## Pending requests table (src/server.rs)

LSP request ids, JSON result values, adapter contexts and the inlay-hint
cache are opaque to the table; they are embedded as `Nat` tokens.  The
response payload is embedded by the projections `resolve` reads
(`type`, `request_seq`, `success`, `message`).  Adapters are function
pointers in the source; here they are drawn from an abstract type `α`
interpreted by an evaluation map `runA`, so that `AdapterResult.Continue`
can carry the follow-up adapter without a circular function type. -/

/-- An opaque JSON value (adapter results, contexts, request payloads). -/
abbrev Val := Nat

/-- An opaque LSP request id (`lsp_server::RequestId`). -/
abbrev RequestId := Nat

/-- The opaque inlay-hint cache a `PostProcess` may update. -/
abbrev InlayCache := Nat

/-- A `PostProcess` (src/server.rs): applied to the adapter's `Ready`
value, it may update the inlay cache or fail. -/
abbrev PostProcessF := Val → InlayCache → Except String InlayCache

/-- `RequestSpec`: the follow-up request an adapter's `Continue` carries. -/
structure RequestSpec (α : Type) where
  route : Route
  payload : Val
  priority : Priority
  on_response : Option α
  response_context : Option Val

/-- `AdapterResult` (src/api/mod.rs): finish with a value or continue with
a follow-up request. -/
inductive AdapterResult (α : Type) where
  | Ready (value : Val)
  | Continue (spec : RequestSpec α)

/-- The projections of a tsserver response payload that
`PendingRequests::resolve` reads. -/
structure Payload where
  ptype : Option String
  request_seq : Option Nat
  success : Option Bool
  message : Option String

/-- `PendingEntry` (src/server.rs). -/
structure PendingEntry (α : Type) where
  id : RequestId
  adapter : α
  context : Option Val
  postprocess : Option PostProcessF

/-- A pending key `(server, seq)`. -/
abbrev PendingKey := ServerKind × Nat

/-- `PendingRequests` (src/server.rs). -/
structure PendingRequests (α : Type) where
  entries : List (PendingKey × PendingEntry α)

/-- `lsp_server::ErrorCode::InternalError as i32`. -/
def internalError : Int := -32603

/-- An outgoing LSP response (`lsp_server::Response`): success with a
result value, or an error with a code and message. -/
inductive Response where
  | ok (id : RequestId) (result : Val)
  | err (id : RequestId) (code : Int) (message : String)
deriving DecidableEq, Repr

/-- The request id a response answers. -/
def Response.idOf : Response → RequestId
  | .ok i _ => i
  | .err i _ _ => i

/-- `PendingRequests::track`: insert one entry per receipt, all with the
same LSP id, adapter, context and post-process. -/
def track {α : Type} (st : PendingRequests α) (receipts : List DispatchReceipt)
    (id : RequestId) (adapter : α) (context : Option Val)
    (postprocess : Option PostProcessF) : PendingRequests α :=
  ⟨receipts.foldl
    (fun m r => insertA m (r.server, r.seq) ⟨id, adapter, context, postprocess⟩)
    st.entries⟩

/-- `PendingRequests::resolve`.  `runA` evaluates an adapter; `dispatch`
is the project handle's `dispatch_request`.  Returns the reply to send
(if any; `Except.error` models a propagated `anyhow` error) together with
the updated table and inlay cache — mutations performed before an error
persist, as they do through `&mut self` in the source. -/
def resolve {α : Type}
    (runA : α → Payload → Option Val → Except String (AdapterResult α))
    (dispatch : Route → Val → Priority → Except String (List DispatchReceipt))
    (st : PendingRequests α) (cache : InlayCache) (server : ServerKind)
    (payload : Payload) :
    Except String (Option Response) × PendingRequests α × InlayCache :=
  if payload.ptype ≠ some "response" then (.ok none, st, cache)
  else
    match payload.request_seq with
    | none => (.ok none, st, cache)
    | some seq =>
      match findA st.entries (server, seq) with
      | none => (.ok none, st, cache)
      | some entry =>
        let st' : PendingRequests α := ⟨eraseA st.entries (server, seq)⟩
        if payload.success.getD false then
          match runA entry.adapter payload entry.context with
          | .ok (.Ready result) =>
            match entry.postprocess with
            | some pp =>
              match pp result cache with
              | .ok cache' => (.ok (some (.ok entry.id result)), st', cache')
              | .error e => (.error e, st', cache)
            | none => (.ok (some (.ok entry.id result)), st', cache)
          | .ok (.Continue spec) =>
            match spec.on_response with
            | none =>
              (.ok (some (.err entry.id internalError "handler missing response adapter")),
                st', cache)
            | some adapter =>
              match dispatch spec.route spec.payload spec.priority with
              | .ok receipts =>
                if receipts.isEmpty then
                  (.ok (some (.err entry.id internalError
                    "tsserver route produced no requests")), st', cache)
                else
                  (.ok none,
                    track st' receipts entry.id adapter spec.response_context
                      entry.postprocess, cache)
              | .error e =>
                (.ok (some (.err entry.id internalError
                  ("failed to dispatch tsserver request: " ++ e))), st', cache)
          | .error e =>
            (.ok (some (.err entry.id internalError
              ("failed to adapt tsserver response: " ++ e))), st', cache)
        else
          (.ok (some (.err entry.id internalError
            (payload.message.getD "tsserver request failed"))), st', cache)

/-- The loop body of `PendingRequests::fail_all`: one error per entry
whose id has not been seen yet. -/
def failAllGo {α : Type} (message : String) :
    List (PendingKey × PendingEntry α) → List RequestId → List Response
  | [], _ => []
  | (_, e) :: rest, seen =>
    if e.id ∈ seen then failAllGo message rest seen
    else .err e.id internalError message :: failAllGo message rest (e.id :: seen)

/-- `PendingRequests::fail_all`: synthesize one `InternalError` response
per distinct tracked LSP id, then clear the table. -/
def failAll {α : Type} (st : PendingRequests α) (message : String) :
    List Response × PendingRequests α :=
  (failAllGo message st.entries [], ⟨[]⟩)

/-! ## Diagnostics aggregator (src/server.rs)

Diagnostics and URIs are opaque tokens. -/

/-- An opaque LSP URI. -/
abbrev Uri := Nat

/-- An opaque converted LSP diagnostic. -/
abbrev Diag := Nat

/-- `DiagnosticsKind` (src/protocol/diagnostics.rs). -/
inductive DiagnosticsKind where
  | Syntax
  | Semantic
  | Suggestion
deriving DecidableEq, Repr

/-- `FileDiagnostics` (src/server.rs): the per-URI per-kind buffers. -/
structure FileDiagnostics where
  syntaxDiags : List Diag
  semanticDiags : List Diag
  suggestionDiags : List Diag
deriving DecidableEq, Repr

/-- `FileDiagnostics::default()`. -/
def FileDiagnostics.emptyFd : FileDiagnostics := ⟨[], [], []⟩

/-- `FileDiagnostics::update_kind`: overwrite one kind's buffer. -/
def FileDiagnostics.updateKind (fd : FileDiagnostics) (kind : DiagnosticsKind)
    (diagnostics : List Diag) : FileDiagnostics :=
  match kind with
  | .Syntax => { fd with syntaxDiags := diagnostics }
  | .Semantic => { fd with semanticDiags := diagnostics }
  | .Suggestion => { fd with suggestionDiags := diagnostics }

/-- `FileDiagnostics::collect`: syntax ++ semantic ++ suggestion. -/
def FileDiagnostics.collect (fd : FileDiagnostics) : List Diag :=
  fd.syntaxDiags ++ fd.semanticDiags ++ fd.suggestionDiags

/-- `StepState` (src/server.rs). -/
structure StepState where
  expected : Bool
  done : Bool
deriving DecidableEq, Repr

/-- `StepState::expected`: an expected step starts not-done, an
unexpected step starts pre-done. -/
def StepState.init (expected : Bool) : StepState :=
  ⟨expected, !expected⟩

/-- `StepState::expected_count`. -/
def StepState.expectedCount (s : StepState) : Nat :=
  if s.expected then 1 else 0

/-- `StepState::mark_done`: returns whether the step newly completed. -/
def StepState.markDone (s : StepState) : Bool × StepState :=
  if s.expected && !s.done then (true, { s with done := true }) else (false, s)

/-- `StepProgress` (src/server.rs). -/
structure StepProgress where
  syntaxStep : StepState
  semanticStep : StepState
  suggestionStep : StepState
deriving DecidableEq, Repr

/-- The step tracking one kind. -/
def StepProgress.stepOf (sp : StepProgress) : DiagnosticsKind → StepState
  | .Syntax => sp.syntaxStep
  | .Semantic => sp.semanticStep
  | .Suggestion => sp.suggestionStep

/-- `StepProgress::for_server`: a syntax-child `geterr` expects the
syntax and suggestion kinds, a semantic-child one only the semantic
kind. -/
def StepProgress.forServer : ServerKind → StepProgress
  | .Syntax => ⟨.init true, .init false, .init true⟩
  | .Semantic => ⟨.init false, .init true, .init false⟩

/-- `StepProgress::expected_count`. -/
def StepProgress.expectedCount (sp : StepProgress) : Nat :=
  sp.syntaxStep.expectedCount + sp.semanticStep.expectedCount
    + sp.suggestionStep.expectedCount

/-- `StepProgress::mark`. -/
def StepProgress.mark (sp : StepProgress) : DiagnosticsKind → Bool × StepProgress
  | .Syntax =>
    let r := sp.syntaxStep.markDone
    (r.1, { sp with syntaxStep := r.2 })
  | .Semantic =>
    let r := sp.semanticStep.markDone
    (r.1, { sp with semanticStep := r.2 })
  | .Suggestion =>
    let r := sp.suggestionStep.markDone
    (r.1, { sp with suggestionStep := r.2 })

/-- `StepProgress::finish_outstanding`: force every step done, counting
how many newly completed. -/
def StepProgress.finishOutstanding (sp : StepProgress) : Nat × StepProgress :=
  let r1 := sp.syntaxStep.markDone
  let r2 := sp.semanticStep.markDone
  let r3 := sp.suggestionStep.markDone
  ((if r1.1 then 1 else 0) + (if r2.1 then 1 else 0) + (if r3.1 then 1 else 0),
    ⟨r1.2, r2.2, r3.2⟩)

/-- `Workload` (src/server.rs). -/
structure Workload where
  expected : Nat
  completed : Nat
deriving DecidableEq, Repr

/-- `Workload::add_expected`. -/
def Workload.addExpected (w : Workload) (count : Nat) : Workload :=
  { w with expected := w.expected + count }

/-- `Workload::add_completed`: clamped to `expected`. -/
def Workload.addCompleted (w : Workload) (count : Nat) : Workload :=
  if count = 0 then w else { w with completed := min (w.completed + count) w.expected }

/-- `PendingDiagnosticsEntry` (src/server.rs). -/
structure PendingDiagnosticsEntry where
  files : List (Uri × FileDiagnostics)
  progress : StepProgress
deriving DecidableEq, Repr

/-- `PendingDiagnosticsEntry::new`. -/
def PendingDiagnosticsEntry.new (server : ServerKind) : PendingDiagnosticsEntry :=
  ⟨[], StepProgress.forServer server⟩

/-- `DiagnosticsEvent` (src/protocol/diagnostics.rs): a converted
diagnostics report or a `requestCompleted`. -/
inductive DiagnosticsEvent where
  | Report (uri : Uri) (diagnostics : List Diag) (request_seq : Option Nat)
      (kind : DiagnosticsKind)
  | Completed (request_seq : Nat)

/-- `DiagnosticsState` (src/server.rs).  The per-server `order` FIFOs are
the two lists; `ready` is the emission queue the session drains into
`publishDiagnostics`. -/
structure DiagnosticsState where
  pending : List ((ServerKind × Nat) × PendingDiagnosticsEntry)
  orderSyntax : List Nat
  orderSemantic : List Nat
  latest : List (Uri × FileDiagnostics)
  ready : List (Uri × List Diag)
  workload : Workload

/-- `DiagnosticsState::default()`. -/
def DiagnosticsState.emptyState : DiagnosticsState :=
  ⟨[], [], [], [], [], ⟨0, 0⟩⟩

/-- The order FIFO for one server. -/
def DiagnosticsState.orderOf (st : DiagnosticsState) : ServerKind → List Nat
  | .Syntax => st.orderSyntax
  | .Semantic => st.orderSemantic

/-- Replace the order FIFO for one server. -/
def DiagnosticsState.setOrder (st : DiagnosticsState) (server : ServerKind)
    (q : List Nat) : DiagnosticsState :=
  match server with
  | .Syntax => { st with orderSyntax := q }
  | .Semantic => { st with orderSemantic := q }

/-- `VecDeque::remove(position(x))`: drop the first occurrence. -/
def removeFirst : List Nat → Nat → List Nat
  | [], _ => []
  | y :: rest, x => if y = x then rest else y :: removeFirst rest x

/-- The per-file body of the `requestCompleted` release loop in
`DiagnosticsState::handle_event`: emit the file's combined list, and
drop or replace its `latest` cache depending on emptiness. -/
def completedStep (acc : List (Uri × FileDiagnostics) × List (Uri × List Diag))
    (p : Uri × FileDiagnostics) :
    List (Uri × FileDiagnostics) × List (Uri × List Diag) :=
  let combined := p.2.collect
  (if combined.isEmpty then eraseA acc.1 p.1 else insertA acc.1 p.1 p.2,
    acc.2 ++ [(p.1, combined)])

/-- `DiagnosticsState::register_pending`: push the seq on the server's
order FIFO, account for the expected steps, and insert a fresh entry. -/
def DiagnosticsState.registerPending (st : DiagnosticsState) (server : ServerKind)
    (seq : Nat) : DiagnosticsState :=
  let entry := PendingDiagnosticsEntry.new server
  let st := st.setOrder server (st.orderOf server ++ [seq])
  { st with
      workload := st.workload.addExpected entry.progress.expectedCount
      pending := insertA st.pending (server, seq) entry }

/-- `DiagnosticsState::handle_event`.  A report is associated with the
pending entry keyed by its `request_seq` (falling back to the head of the
server's order FIFO when the event carries none); a matched report only
buffers and marks progress.  An unmatched report overlays the latest
cached state for its URI and emits immediately.  `requestCompleted`
releases the matching entry: each touched URI's combined list is emitted,
the per-URI cache dropped when it is empty and replaced otherwise, and
every outstanding step forced done. -/
def DiagnosticsState.handleEvent (st : DiagnosticsState) (server : ServerKind) :
    DiagnosticsEvent → DiagnosticsState
  | .Report uri diagnostics request_seq kind =>
    let key : Option (ServerKind × Nat) :=
      match request_seq with
      | some seq => some (server, seq)
      | none => (st.orderOf server).head?.map fun seq => (server, seq)
    let matched : Option (PendingDiagnosticsEntry × ServerKind × Nat) :=
      match key with
      | some k =>
        match findA st.pending k with
        | some entry => some (entry, k)
        | none => none
      | none => none
    match matched with
    | some (entry, k) =>
      let fd := (findA entry.files uri).getD FileDiagnostics.emptyFd
      let entry' : PendingDiagnosticsEntry :=
        { files := insertA entry.files uri (fd.updateKind kind diagnostics)
          progress := (entry.progress.mark kind).2 }
      { st with
          pending := insertA st.pending k entry'
          workload :=
            if (entry.progress.mark kind).1 then st.workload.addCompleted 1
            else st.workload }
    | none =>
      let latestFd := (findA st.latest uri).getD FileDiagnostics.emptyFd
      let fd := latestFd.updateKind kind diagnostics
      let combined := fd.collect
      { st with
          latest :=
            if combined.isEmpty then eraseA st.latest uri
            else insertA (eraseA st.latest uri) uri fd
          ready := st.ready ++ [(uri, combined)] }
  | .Completed request_seq =>
    match findA st.pending (server, request_seq) with
    | none => st
    | some entry =>
      let st := { st with pending := eraseA st.pending (server, request_seq) }
      let st := st.setOrder server (removeFirst (st.orderOf server) request_seq)
      let (latest', ready') := entry.files.foldl completedStep (st.latest, st.ready)
      let forced := entry.progress.finishOutstanding.1
      { st with
          latest := latest'
          ready := ready'
          workload := st.workload.addCompleted forced }

/-! ## Witness fixtures (concrete instances used only by witnesses) -/

/-- A concrete table, adapter evaluator, dispatcher and payloads for the
pending-table witnesses. -/
def wEntry : PendingEntry Unit := ⟨42, (), none, none⟩

def wSt : PendingRequests Unit := ⟨[((.Syntax, 5), wEntry)]⟩

def wRun : Unit → Payload → Option Val → Except String (AdapterResult Unit) :=
  fun _ _ _ => .ok (.Ready 0)

def wDispatch : Route → Val → Priority → Except String (List DispatchReceipt) :=
  fun _ _ _ => .ok []

def wPayloadOk : Payload := ⟨some "response", some 5, some true, none⟩

def wPayloadFail : Payload := ⟨some "response", some 5, some false, some "boom"⟩

/-- A table tracking one LSP request under both server kinds, as a `Both`
dispatch records it. -/
def wStBoth : PendingRequests Unit := ⟨[((.Syntax, 3), wEntry), ((.Semantic, 7), wEntry)]⟩

/-- The aggregator state with one semantic `geterr` entry holding one
buffered semantic report, used by the C3 witness. -/
def wDiagState : DiagnosticsState :=
  (DiagnosticsState.emptyState.registerPending .Semantic 0).handleEvent .Semantic
    (.Report 7 [3] (some 0) .Semantic)

/-- A single line of `2^32` one-unit characters: its UTF-16 count
overflows the `u32` cast in `recompute_metrics`. -/
def hugeText : List Char := List.replicate (2 ^ 32) 'a'

/-- A first line of `2^32 - 2` one-unit characters, then a LF and one
more character: the second line's `start_utf16` saturates the `u32`
cursor at `2^32 - 1`, so `utf16_offset` wraps on it. -/
def hugeLineText : List Char := List.replicate (2 ^ 32 - 2) 'a' ++ '\n' :: ['b']

/-- A store holding `hugeLineText` as an opened document. -/
def hugeStore : DocumentStore := DocumentStore.empty.open "file:///big.ts" hugeLineText none

/-- A range on the second line of `hugeLineText`. -/
def hugeRange : Range := ⟨⟨1, 0⟩, ⟨1, 1⟩⟩

/-! ## Queue ordering (C1) -/

theorem drainGo_eq (l : List Request) : drainGo l = l := by
  induction l with
  | nil => rfl
  | cons r rest ih => simp [drainGo, ih]

theorem rposition_append (p : Request → Bool) (l₁ l₂ : List Request) :
    rposition p (l₁ ++ l₂) =
      match rposition p l₂ with
      | some i => some (l₁.length + i)
      | none => rposition p l₁ := by
  induction l₁ with
  | nil => cases h : rposition p l₂ <;> simp [h, rposition]
  | cons x xs ih =>
    simp only [List.cons_append, rposition, List.append_eq]
    rw [ih]
    cases h₂ : rposition p l₂ with
    | none => rfl
    | some i =>
      simp only [List.length_cons]
      congr 1
      omega

theorem rposition_none (p : Request → Bool) (l : List Request)
    (h : ∀ r ∈ l, p r = false) : rposition p l = none := by
  induction l with
  | nil => rfl
  | cons x xs ih =>
    have hx := h x (List.mem_cons_self x xs)
    have := ih fun r hr => h r (List.mem_cons_of_mem x hr)
    simp [rposition, this, hx]

theorem rposition_all (p : Request → Bool) (l : List Request)
    (h : ∀ r ∈ l, p r = true) (hne : l ≠ []) :
    rposition p l = some (l.length - 1) := by
  induction l with
  | nil => exact absurd rfl hne
  | cons x xs ih =>
    cases xs with
    | nil => simp [rposition, h x (List.mem_cons_self x [])]
    | cons y ys =>
      have hxs := ih fun r hr => h r (List.mem_cons_of_mem x hr)
      have hout : rposition p (x :: y :: ys)
          = match rposition p (y :: ys) with
            | some i => some (i + 1)
            | none => if p x = true then some 0 else none := rfl
      rw [hout, hxs (List.cons_ne_nil y ys)]
      show some ((y :: ys).length - 1 + 1) = some ((x :: y :: ys).length - 1)
      simp only [List.length_cons, Nat.add_sub_cancel]

theorem insertAt_append (a : Request) (l₁ l₂ : List Request) :
    insertAt a l₁.length (l₁ ++ l₂) = l₁ ++ a :: l₂ := by
  induction l₁ with
  | nil => rfl
  | cons x xs ih => simp [insertAt, ih]

theorem enqueueAll_queue (items : List (Nat × Priority)) :
    ∀ (s : Nat) (Cs Ns Ls : List Request),
      (∀ r ∈ Cs, r.priority = .Const) →
      (∀ r ∈ Ns, r.priority = .Normal) →
      (∀ r ∈ Ls, r.priority = .Low) →
      (enqueueAll ⟨s, Cs.reverse ++ Ns.reverse ++ Ls⟩ items).queue =
        (Cs ++ (mkRequests items s).filter (fun r => r.priority == .Const)).reverse
          ++ (Ns ++ (mkRequests items s).filter (fun r => r.priority == .Normal)).reverse
          ++ (Ls ++ (mkRequests items s).filter (fun r => r.priority == .Low)) := by
  induction items with
  | nil => intro s Cs Ns Ls _ _ _; simp [enqueueAll, mkRequests]
  | cons item rest ih =>
    intro s Cs Ns Ls hC hN hL
    obtain ⟨p, pr⟩ := item
    cases pr with
    | Const =>
      have hq : RequestQueue.enqueue ⟨s, Cs.reverse ++ Ns.reverse ++ Ls⟩ p .Const
          = (s, ⟨s + 1, (Cs ++ [(⟨s, p, .Const⟩ : Request)]).reverse ++ Ns.reverse ++ Ls⟩) := by
        simp [RequestQueue.enqueue]
      rw [show enqueueAll ⟨s, Cs.reverse ++ Ns.reverse ++ Ls⟩ ((p, Priority.Const) :: rest)
          = enqueueAll (RequestQueue.enqueue ⟨s, Cs.reverse ++ Ns.reverse ++ Ls⟩ p .Const).2
              rest from rfl,
        hq, ih (s + 1) (Cs ++ [(⟨s, p, .Const⟩ : Request)]) Ns Ls
          (by intro r hr
              rcases List.mem_append.1 hr with h | h
              · exact hC r h
              · simp at h; subst h; rfl)
          hN hL]
      simp [mkRequests, List.filter_cons]
    | Normal =>
      have hnone : rposition (fun r => r.priority == .Const) (Ns.reverse ++ Ls) = none := by
        apply rposition_none
        intro r hr
        rcases List.mem_append.1 hr with h | h
        · rw [hN r (List.mem_reverse.1 h)]; rfl
        · rw [hL r h]; rfl
      have hidx :
          (((rposition (fun r => r.priority == .Const)
              (Cs.reverse ++ Ns.reverse ++ Ls)).map (· + 1)).getD 0) = Cs.length := by
        rw [List.append_assoc, rposition_append, hnone]
        cases hCs : Cs with
        | nil => simp [rposition]
        | cons c cs =>
          rw [rposition_all _ _
            (by intro r hr; rw [hC r (by rw [hCs]; exact List.mem_reverse.1 hr)]; rfl)
            (by simp)]
          simp only [Option.map_some', Option.getD_some, List.length_reverse,
            List.length_cons]
          omega
      have hq : RequestQueue.enqueue ⟨s, Cs.reverse ++ Ns.reverse ++ Ls⟩ p .Normal
          = (s, ⟨s + 1, Cs.reverse ++ (Ns ++ [(⟨s, p, .Normal⟩ : Request)]).reverse ++ Ls⟩) := by
        simp only [RequestQueue.enqueue, hidx]
        rw [show Cs.length = Cs.reverse.length from (List.length_reverse Cs).symm,
          List.append_assoc, insertAt_append]
        simp
      rw [show enqueueAll ⟨s, Cs.reverse ++ Ns.reverse ++ Ls⟩ ((p, Priority.Normal) :: rest)
          = enqueueAll (RequestQueue.enqueue ⟨s, Cs.reverse ++ Ns.reverse ++ Ls⟩ p .Normal).2
              rest from rfl,
        hq, ih (s + 1) Cs (Ns ++ [(⟨s, p, .Normal⟩ : Request)]) Ls hC
          (by intro r hr
              rcases List.mem_append.1 hr with h | h
              · exact hN r h
              · simp at h; subst h; rfl)
          hL]
      simp [mkRequests, List.filter_cons]
    | Low =>
      have hq : RequestQueue.enqueue ⟨s, Cs.reverse ++ Ns.reverse ++ Ls⟩ p .Low
          = (s, ⟨s + 1, Cs.reverse ++ Ns.reverse ++ (Ls ++ [(⟨s, p, .Low⟩ : Request)])⟩) := by
        simp [RequestQueue.enqueue]
      rw [show enqueueAll ⟨s, Cs.reverse ++ Ns.reverse ++ Ls⟩ ((p, Priority.Low) :: rest)
          = enqueueAll (RequestQueue.enqueue ⟨s, Cs.reverse ++ Ns.reverse ++ Ls⟩ p .Low).2
              rest from rfl,
        hq, ih (s + 1) Cs Ns (Ls ++ [(⟨s, p, .Low⟩ : Request)]) hC hN
          (by intro r hr
              rcases List.mem_append.1 hr with h | h
              · exact hL r h
              · simp at h; subst h; rfl)]
      simp [mkRequests, List.filter_cons]

/-- C1, corrected.  Draining after any finite sequence of enqueues yields
all `Const` requests first, then all `Normal` requests, then all `Low`
requests — but `Const` and `Normal` requests each come out in *reverse*
insertion order (the code inserts `Const` at the front and `Normal`
immediately after the `Const` block, ahead of earlier `Normal`s); only
`Low` requests drain FIFO. -/
theorem drain_band_order (items : List (Nat × Priority)) :
    (enqueueAll RequestQueue.empty items).drain =
      ((mkRequests items 0).filter (fun r => r.priority == .Const)).reverse
        ++ ((mkRequests items 0).filter (fun r => r.priority == .Normal)).reverse
        ++ (mkRequests items 0).filter (fun r => r.priority == .Low) := by
  have h := enqueueAll_queue items 0 [] [] []
    (by intro r hr; cases hr) (by intro r hr; cases hr) (by intro r hr; cases hr)
  simpa [RequestQueue.drain, drainGo_eq, RequestQueue.empty] using h

/-- C1, counterexample to the claim as stated: two `Normal` requests are
drained in reverse enqueue order (the second-enqueued request, seq 1,
comes out before the first, seq 0), so requests of equal priority are not
FIFO. -/
theorem drain_fifo_counterexample :
    ¬ ((enqueueAll RequestQueue.empty [(10, .Normal), (11, .Normal)]).drain.Pairwise
        fun a b => a.priority = b.priority → a.seq < b.seq) := by
  decide

/-! ## Coordinate round-trip (C5) -/

/-- C5, corrected.  For every LSP position whose `u32` coordinates can be
incremented without wrapping (`line < 2^32 - 1`, `character < 2^32 - 1`),
converting to tsserver coordinates yields `line + 1` / `character + 1`,
and converting back with the saturating-subtraction inverse restores the
original position; hence the round-trip is the identity on every such
range.  (At `line = 2^32 - 1` the `u32` increment wraps and the
round-trip fails, see the counterexample.) -/
theorem tsserver_roundtrip (r : Range)
    (h1 : r.start.line < 2 ^ 32 - 1) (h2 : r.start.character < 2 ^ 32 - 1)
    (h3 : r.«end».line < 2 ^ 32 - 1) (h4 : r.«end».character < 2 ^ 32 - 1) :
    (lsp_range_to_tsserver r).start.line = r.start.line + 1 ∧
    (lsp_range_to_tsserver r).start.offset = r.start.character + 1 ∧
    (lsp_range_to_tsserver r).«end».line = r.«end».line + 1 ∧
    (lsp_range_to_tsserver r).«end».offset = r.«end».character + 1 ∧
    tsserver_range_from_value (lsp_range_to_tsserver r).start
      (lsp_range_to_tsserver r).«end» = r := by
  obtain ⟨⟨sl, sc⟩, ⟨el, ec⟩⟩ := r
  simp only [lsp_range_to_tsserver, lsp_position_to_tsserver, tsserver_range_from_value,
    tsserver_position_value, Range.mk.injEq, Position.mk.injEq] at *
  omega

/-- C5, witness: the round-trip at a small concrete range. -/
theorem tsserver_roundtrip_witness :
    tsserver_range_from_value
      (lsp_range_to_tsserver ⟨⟨4, 2⟩, ⟨9, 0⟩⟩).start
      (lsp_range_to_tsserver ⟨⟨4, 2⟩, ⟨9, 0⟩⟩).«end» = ⟨⟨4, 2⟩, ⟨9, 0⟩⟩ :=
  (tsserver_roundtrip ⟨⟨4, 2⟩, ⟨9, 0⟩⟩ (by norm_num) (by norm_num) (by norm_num)
    (by norm_num)).2.2.2.2

/-- C5, counterexample to the claim as stated: at `line = 2^32 - 1` the
`u32` increment wraps to 0 and the saturating-subtraction inverse returns
line 0, so the round-trip is not the identity for every position with
`line ≥ 0`. -/
theorem tsserver_roundtrip_counterexample :
    tsserver_position_value
      (lsp_position_to_tsserver ⟨2 ^ 32 - 1, 0⟩).line
      (lsp_position_to_tsserver ⟨2 ^ 32 - 1, 0⟩).offset ≠ ⟨2 ^ 32 - 1, 0⟩ := by
  decide

/-! ## Dispatch receipts (C8) -/

/-- C8.  `Syntax` dispatch returns exactly one receipt carrying the
syntax queue's next seq; `Semantic` dispatch is a no-op with zero
receipts when the semantic child is disabled and returns one semantic
receipt otherwise; `Both` returns two receipts (one per server) when the
semantic child exists, and only the syntax receipt when it does not. -/
theorem dispatch_receipts (s : Service) (payload : Nat) (priority : Priority) :
    (s.dispatchRequest .Syntax payload priority).1 = [⟨.Syntax, s.syntaxQueue.seq⟩] ∧
    (s.dispatchRequest .Semantic payload priority).1 =
      (if s.semanticEnabled then [⟨.Semantic, s.semanticQueue.seq⟩] else []) ∧
    (s.semanticEnabled = false → s.dispatchRequest .Semantic payload priority = ([], s)) ∧
    (s.dispatchRequest .Both payload priority).1 =
      (if s.semanticEnabled then
        [⟨.Syntax, s.syntaxQueue.seq⟩, ⟨.Semantic, s.semanticQueue.seq⟩]
      else [⟨.Syntax, s.syntaxQueue.seq⟩]) := by
  cases hsem : s.semanticEnabled <;>
    simp [Service.dispatchRequest, Service.flushQueue, RequestQueue.enqueue, hsem]

/-- C8, witness: with the semantic child disabled, a `Semantic` dispatch
is a no-op with no receipts. -/
theorem dispatch_receipts_witness :
    (Service.dispatchRequest ⟨false, ⟨0, []⟩, ⟨0, []⟩, [], []⟩ .Semantic 5 .Normal)
      = ([], ⟨false, ⟨0, []⟩, ⟨0, []⟩, [], []⟩) :=
  (dispatch_receipts ⟨false, ⟨0, []⟩, ⟨0, []⟩, [], []⟩ 5 .Normal).2.2.1 rfl

/-! ## Association-list map lemmas -/

theorem findA_eraseA {κ ν : Type} [DecidableEq κ] (m : List (κ × ν)) (k : κ) :
    findA (eraseA m k) k = none := by
  induction m with
  | nil => rfl
  | cons p rest ih =>
    by_cases h : p.1 = k
    · simpa [eraseA, h] using ih
    · simpa [eraseA, findA, h] using ih

theorem findA_eraseA_ne {κ ν : Type} [DecidableEq κ] (m : List (κ × ν)) (k k' : κ)
    (h : k' ≠ k) : findA (eraseA m k) k' = findA m k' := by
  have h3 : k ≠ k' := fun hk => h hk.symm
  induction m with
  | nil => rfl
  | cons p rest ih =>
    by_cases hp : p.1 = k
    · have h2 : p.1 ≠ k' := by rw [hp]; exact h3
      have e1 : eraseA (p :: rest) k = eraseA rest k := by simp [eraseA, hp]
      have e2 : findA (p :: rest) k' = findA rest k' := by simp [findA, h2]
      rw [e1, e2, ih]
    · have e1 : eraseA (p :: rest) k = p :: eraseA rest k := by simp [eraseA, hp]
      by_cases hp' : p.1 = k'
      · rw [e1]
        simp [findA, hp']
      · rw [e1]
        simp [findA, hp', ih]

theorem findA_insertA_ne {κ ν : Type} [DecidableEq κ] (m : List (κ × ν)) (k k' : κ)
    (v : ν) (h : k' ≠ k) : findA (insertA m k v) k' = findA m k' := by
  have : k ≠ k' := fun hk => h hk.symm
  simp [insertA, findA, this]
  exact findA_eraseA_ne m k k' h

theorem findA_insertA_self {κ ν : Type} [DecidableEq κ] (m : List (κ × ν)) (k : κ)
    (v : ν) : findA (insertA m k v) k = some v := by
  simp [insertA, findA]

/-! ## Pending-table resolution (C2, C9, C10) -/

theorem findA_track_foldl {α : Type} (k : PendingKey) (v : PendingEntry α) :
    ∀ (rs : List DispatchReceipt) (m : List (PendingKey × PendingEntry α)),
      (∀ r ∈ rs, (r.server, r.seq) ≠ k) →
      findA (rs.foldl (fun acc r => insertA acc (r.server, r.seq) v) m) k = findA m k := by
  intro rs
  induction rs with
  | nil => intro m _; rfl
  | cons r rest ih =>
    intro m h
    have hr : (r.server, r.seq) ≠ k := h r (List.mem_cons_self r rest)
    have := ih (insertA m (r.server, r.seq) v) fun x hx => h x (List.mem_cons_of_mem r hx)
    simpa [List.foldl_cons, findA_insertA_ne m _ k v (fun hk => hr hk.symm)] using this

theorem resolve_skip_unmatched {α : Type}
    (runA : α → Payload → Option Val → Except String (AdapterResult α))
    (dispatch : Route → Val → Priority → Except String (List DispatchReceipt))
    (st : PendingRequests α) (cache : InlayCache) (server : ServerKind)
    (payload : Payload) (seq : Nat)
    (hp : payload.ptype = some "response") (hs : payload.request_seq = some seq)
    (he : findA st.entries (server, seq) = none) :
    resolve runA dispatch st cache server payload = (.ok none, st, cache) := by
  simp [resolve, hp, hs, he]

theorem resolve_removes_key {α : Type}
    (runA : α → Payload → Option Val → Except String (AdapterResult α))
    (dispatch : Route → Val → Priority → Except String (List DispatchReceipt))
    (st : PendingRequests α) (cache : InlayCache) (server : ServerKind)
    (payload : Payload) (seq : Nat) (e : PendingEntry α)
    (hp : payload.ptype = some "response") (hs : payload.request_seq = some seq)
    (he : findA st.entries (server, seq) = some e)
    (hfresh : ∀ route v pr receipts, dispatch route v pr = .ok receipts →
      ∀ r ∈ receipts, (r.server, r.seq) ≠ (server, seq)) :
    findA (resolve runA dispatch st cache server payload).2.1.entries (server, seq)
      = none := by
  simp only [resolve, hp, hs, he]
  cases hsucc : payload.success.getD false with
  | false => simp [hsucc, findA_eraseA]
  | true =>
    cases hrun : runA e.adapter payload e.context with
    | error err => simp [hsucc, hrun, findA_eraseA]
    | ok ar =>
      cases ar with
      | Ready v =>
        cases hpp : e.postprocess with
        | none => simp [hsucc, hrun, hpp, findA_eraseA]
        | some pp =>
          cases hres : pp v cache with
          | ok c2 => simp [hsucc, hrun, hpp, hres, findA_eraseA]
          | error err => simp [hsucc, hrun, hpp, hres, findA_eraseA]
      | Continue spec =>
        cases ho : spec.on_response with
        | none => simp [hsucc, hrun, ho, findA_eraseA]
        | some ad =>
          cases hd : dispatch spec.route spec.payload spec.priority with
          | error err => simp [hsucc, hrun, ho, hd, findA_eraseA]
          | ok receipts =>
            cases hre : receipts.isEmpty with
            | true => simp [hsucc, hrun, ho, hd, hre, findA_eraseA]
            | false =>
              simp only [track]
              simp [hsucc, hrun, ho, hd, hre]
              rw [findA_track_foldl (server, seq) _ receipts _ (hfresh _ _ _ _ hd),
                findA_eraseA]

/-- C2.  If a response's `(server, request_seq)` key is not tracked, the
resolve is a silent drop: no reply and no state change.  If the key is
tracked, resolving removes it (provided any follow-up dispatch returns
fresh receipts, as the per-child monotonic seq counters guarantee), so a
later response carrying the same key — under any adapter evaluation,
dispatcher and cache — is dropped: resolve returns no reply and leaves
the table unchanged. -/
theorem pending_resolve_at_most_once {α : Type}
    (runA : α → Payload → Option Val → Except String (AdapterResult α))
    (dispatch : Route → Val → Priority → Except String (List DispatchReceipt))
    (st : PendingRequests α) (cache : InlayCache) (server : ServerKind)
    (payload : Payload) (seq : Nat)
    (hp : payload.ptype = some "response") (hs : payload.request_seq = some seq)
    (hfresh : ∀ route v pr receipts, dispatch route v pr = .ok receipts →
      ∀ r ∈ receipts, (r.server, r.seq) ≠ (server, seq)) :
    (findA st.entries (server, seq) = none →
      resolve runA dispatch st cache server payload = (.ok none, st, cache)) ∧
    (∀ e, findA st.entries (server, seq) = some e →
      findA (resolve runA dispatch st cache server payload).2.1.entries (server, seq)
          = none ∧
      ∀ (runB : α → Payload → Option Val → Except String (AdapterResult α))
        (dispatchB : Route → Val → Priority → Except String (List DispatchReceipt))
        (cache₂ : InlayCache) (payload₂ : Payload),
        payload₂.ptype = some "response" → payload₂.request_seq = some seq →
        resolve runB dispatchB (resolve runA dispatch st cache server payload).2.1
            cache₂ server payload₂
          = (.ok none, (resolve runA dispatch st cache server payload).2.1, cache₂)) := by
  refine ⟨fun he => resolve_skip_unmatched runA dispatch st cache server payload seq
    hp hs he, fun e he => ?_⟩
  have hgone := resolve_removes_key runA dispatch st cache server payload seq e
    hp hs he hfresh
  exact ⟨hgone, fun runB dispatchB cache₂ payload₂ hp₂ hs₂ =>
    resolve_skip_unmatched runB dispatchB _ cache₂ server payload₂ seq hp₂ hs₂ hgone⟩


/-- C2, witness: resolving a tracked key removes it, and a duplicate
response for the same key is dropped with no reply and no state change. -/
theorem pending_resolve_at_most_once_witness :
    findA (resolve wRun wDispatch wSt 0 .Syntax wPayloadOk).2.1.entries (.Syntax, 5)
        = none ∧
    resolve wRun wDispatch (resolve wRun wDispatch wSt 0 .Syntax wPayloadOk).2.1 1
        .Syntax wPayloadOk
      = (.ok none, (resolve wRun wDispatch wSt 0 .Syntax wPayloadOk).2.1, 1) := by
  have h := (pending_resolve_at_most_once wRun wDispatch wSt 0 .Syntax wPayloadOk 5
    rfl rfl
    (by
      intro route v pr receipts h r hr
      simp only [wDispatch, Except.ok.injEq] at h
      subst h
      cases hr)).2 wEntry rfl
  exact ⟨h.1, h.2 wRun wDispatch 1 wPayloadOk rfl rfl⟩

/-- C9.  A tracked response with `success` false or absent produces an
`InternalError` reply to the entry's LSP id carrying tsserver's `message`
field (default text when absent), and — since the conclusion holds for
every adapter evaluation `runA` — without invoking the adapter. -/
theorem resolve_failure_reply {α : Type}
    (runA : α → Payload → Option Val → Except String (AdapterResult α))
    (dispatch : Route → Val → Priority → Except String (List DispatchReceipt))
    (st : PendingRequests α) (cache : InlayCache) (server : ServerKind)
    (payload : Payload) (seq : Nat) (e : PendingEntry α)
    (hp : payload.ptype = some "response") (hs : payload.request_seq = some seq)
    (he : findA st.entries (server, seq) = some e)
    (hf : payload.success.getD false = false) :
    resolve runA dispatch st cache server payload
      = (.ok (some (.err e.id internalError
          (payload.message.getD "tsserver request failed"))),
        ⟨eraseA st.entries (server, seq)⟩, cache) := by
  simp [resolve, hp, hs, he, hf]

/-- C9, witness: a concrete `success:false` response is answered with an
`InternalError` carrying tsserver's message. -/
theorem resolve_failure_reply_witness :
    resolve wRun wDispatch wSt 0 .Syntax wPayloadFail
      = (.ok (some (.err 42 internalError "boom")), ⟨[]⟩, 0) :=
  resolve_failure_reply wRun wDispatch wSt 0 .Syntax wPayloadFail 5 wEntry
    rfl rfl rfl rfl

theorem failAllGo_spec {α : Type} (msg : String) :
    ∀ (l : List (PendingKey × PendingEntry α)) (seen : List RequestId),
      (∀ i, i ∈ (failAllGo msg l seen).map Response.idOf ↔
        (i ∈ l.map (fun p => p.2.id) ∧ i ∉ seen)) ∧
      ((failAllGo msg l seen).map Response.idOf).Nodup ∧
      (∀ r ∈ failAllGo msg l seen, ∃ i, r = .err i internalError msg) := by
  intro l
  induction l with
  | nil => intro seen; refine ⟨by simp [failAllGo], by simp [failAllGo], by simp [failAllGo]⟩
  | cons p rest ih =>
    intro seen
    obtain ⟨k, e⟩ := p
    by_cases hseen : e.id ∈ seen
    · have h := ih seen
      refine ⟨fun i => ?_, ?_, ?_⟩
      · rw [show failAllGo msg ((k, e) :: rest) seen = failAllGo msg rest seen by
          simp [failAllGo, hseen]]
        rw [(h.1 i)]
        constructor
        · rintro ⟨hi, hni⟩; exact ⟨by simp; right; simpa using hi, hni⟩
        · rintro ⟨hi, hni⟩
          simp at hi
          rcases hi with hi | hi
          · exact absurd (hi ▸ hseen) hni
          · exact ⟨by simpa using hi, hni⟩
      · rw [show failAllGo msg ((k, e) :: rest) seen = failAllGo msg rest seen by
          simp [failAllGo, hseen]]
        exact h.2.1
      · rw [show failAllGo msg ((k, e) :: rest) seen = failAllGo msg rest seen by
          simp [failAllGo, hseen]]
        exact h.2.2
    · have h := ih (e.id :: seen)
      have hgo : failAllGo msg ((k, e) :: rest) seen
          = .err e.id internalError msg :: failAllGo msg rest (e.id :: seen) := by
        simp [failAllGo, hseen]
      refine ⟨fun i => ?_, ?_, ?_⟩
      · rw [hgo]
        simp only [List.map_cons, List.mem_cons, List.mem_map]
        constructor
        · rintro (hi | hi)
          · subst hi
            exact ⟨by simp [Response.idOf], hseen⟩
          · have := (h.1 i).1 (by simpa using hi)
            refine ⟨by simp; right; simpa using this.1, fun hc => this.2 ?_⟩
            exact List.mem_cons_of_mem _ hc
        · rintro ⟨hi, hni⟩
          simp at hi
          rcases hi with hi | hi
          · left; simp [Response.idOf, hi]
          · by_cases hie : i = e.id
            · left; simp [Response.idOf, hie]
            · right
              have := (h.1 i).2 ⟨by simpa using hi, by
                intro hc
                rcases List.mem_cons.1 hc with hc | hc
                · exact hie hc
                · exact hni hc⟩
              simpa using this
      · rw [hgo]
        simp only [List.map_cons]
        refine List.nodup_cons.2 ⟨fun hc => ?_, h.2.1⟩
        have := (h.1 (Response.idOf (.err e.id internalError msg))).1 hc
        exact this.2 (by simp [Response.idOf])
      · rw [hgo]
        intro r hr
        rcases List.mem_cons.1 hr with hr | hr
        · exact ⟨e.id, by simp [hr]⟩
        · exact h.2.2 r hr

/-- C10.  `fail_all` empties the table and produces exactly one
`InternalError` response per distinct tracked LSP id: the response ids
are duplicate-free and are exactly the ids among the tracked entries —
in particular a request tracked under both server kinds (as a `Both`
dispatch records it, with one entry per receipt carrying the same id)
receives a single synthetic error reply. -/
theorem fail_all_responses {α : Type} (st : PendingRequests α) (msg : String) :
    (failAll st msg).2.entries = [] ∧
    ((failAll st msg).1.map Response.idOf).Nodup ∧
    (∀ i, i ∈ (failAll st msg).1.map Response.idOf ↔
      i ∈ st.entries.map (fun p => p.2.id)) ∧
    (∀ r ∈ (failAll st msg).1, ∃ i, r = .err i internalError msg) := by
  have h := failAllGo_spec (α := α) msg st.entries []
  exact ⟨rfl, h.2.1, fun i => by simpa using h.1 i, h.2.2⟩


/-- C10, witness: failing a table holding the same LSP id under both
server kinds yields one response for that id. -/
theorem fail_all_responses_witness :
    (∃ i, Response.err 42 internalError "cancelled" = .err i internalError "cancelled") ∧
    (failAll wStBoth "cancelled").2.entries = [] ∧
    ((failAll wStBoth "cancelled").1.map Response.idOf).Nodup :=
  ⟨(fail_all_responses wStBoth "cancelled").2.2.2 (Response.err 42 internalError "cancelled")
      (by decide),
    (fail_all_responses wStBoth "cancelled").1,
    (fail_all_responses wStBoth "cancelled").2.1⟩

/-! ## Diagnostics step progress (C4) -/

theorem markDone_eq (s : StepState) :
    s.markDone.2 = ⟨s.expected, s.done || s.expected⟩ := by
  obtain ⟨e, d⟩ := s
  cases e <;> cases d <;> rfl

/-- C4.  `for_server` expects exactly Syntax and Suggestion for the
syntax child (Semantic pre-done) and exactly Semantic for the semantic
child; `register_pending` installs exactly that progress; a report of a
kind marks that kind's step done (leaving the other steps untouched);
and `requestCompleted` (via `finish_outstanding`) forces every
still-outstanding expected step to done. -/
theorem step_progress_expectations :
    StepProgress.forServer .Syntax = ⟨⟨true, false⟩, ⟨false, true⟩, ⟨true, false⟩⟩ ∧
    StepProgress.forServer .Semantic = ⟨⟨false, true⟩, ⟨true, false⟩, ⟨false, true⟩⟩ ∧
    (∀ (st : DiagnosticsState) (server : ServerKind) (seq : Nat),
      findA (st.registerPending server seq).pending (server, seq)
        = some ⟨[], StepProgress.forServer server⟩) ∧
    (∀ (sp : StepProgress) (k k' : DiagnosticsKind),
      (sp.mark k).2.stepOf k' =
        if k' = k then ⟨(sp.stepOf k).expected, (sp.stepOf k).done || (sp.stepOf k).expected⟩
        else sp.stepOf k') ∧
    (∀ (st : DiagnosticsState) (server : ServerKind) (seq : Nat) (uri : Uri)
        (ds : List Diag) (kind : DiagnosticsKind) (e : PendingDiagnosticsEntry),
      findA st.pending (server, seq) = some e →
      findA (st.handleEvent server (.Report uri ds (some seq) kind)).pending (server, seq)
        = some ⟨insertA e.files uri
            (((findA e.files uri).getD FileDiagnostics.emptyFd).updateKind kind ds),
          (e.progress.mark kind).2⟩) ∧
    (∀ (sp : StepProgress) (k : DiagnosticsKind),
      sp.finishOutstanding.2.stepOf k
        = ⟨(sp.stepOf k).expected, (sp.stepOf k).done || (sp.stepOf k).expected⟩) ∧
    (∀ (server : ServerKind) (k : DiagnosticsKind),
      (((StepProgress.forServer server).finishOutstanding).2.stepOf k).done = true) := by
  refine ⟨rfl, rfl, ?_, ?_, ?_, ?_, ?_⟩
  · intro st server seq
    cases server <;>
      simp [DiagnosticsState.registerPending, DiagnosticsState.setOrder,
        DiagnosticsState.orderOf, findA_insertA_self, PendingDiagnosticsEntry.new]
  · intro sp k k'
    cases k <;> cases k' <;>
      simp [StepProgress.mark, StepProgress.stepOf, markDone_eq]
  · intro st server seq uri ds kind e he
    simp [DiagnosticsState.handleEvent, he, findA_insertA_self]
  · intro sp k
    cases k <;> simp [StepProgress.finishOutstanding, StepProgress.stepOf, markDone_eq]
  · intro server k
    cases server <;> cases k <;> decide

/-- C4, witness: a syntax-child report of kind Syntax marks the Syntax
step done on the registered entry (Suggestion still outstanding,
Semantic pre-done) and buffers the diagnostics for the URI. -/
theorem step_progress_expectations_witness :
    findA ((DiagnosticsState.emptyState.registerPending .Syntax 0).handleEvent .Syntax
        (.Report 4 [9] (some 0) .Syntax)).pending (.Syntax, 0)
      = some ⟨[(4, ⟨[9], [], []⟩)], ⟨⟨true, true⟩, ⟨false, true⟩, ⟨true, false⟩⟩⟩ := by
  have h := step_progress_expectations.2.2.2.2.1
    (DiagnosticsState.emptyState.registerPending .Syntax 0) .Syntax 0 4 [9] .Syntax
    ⟨[], StepProgress.forServer .Syntax⟩ (by decide)
  rw [h]
  decide

/-! ## Diagnostics emission (C3) -/

theorem completed_fold_ready (files : List (Uri × FileDiagnostics)) :
    ∀ latest ready,
      (files.foldl completedStep (latest, ready)).2
        = ready ++ files.map fun p => (p.1, p.2.collect) := by
  induction files with
  | nil => intro latest ready; simp
  | cons p rest ih =>
    intro latest ready
    simp only [List.foldl_cons, List.map_cons]
    rw [show completedStep (latest, ready) p
        = (if p.2.collect.isEmpty then eraseA latest p.1 else insertA latest p.1 p.2,
          ready ++ [(p.1, p.2.collect)]) from rfl]
    rw [ih]
    simp

theorem completed_fold_latest_notmem (u : Uri) :
    ∀ (files : List (Uri × FileDiagnostics)) latest ready,
      u ∉ files.map Prod.fst →
      findA (files.foldl completedStep (latest, ready)).1 u = findA latest u := by
  intro files
  induction files with
  | nil => intro latest ready _; rfl
  | cons p rest ih =>
    intro latest ready hu
    have hne : u ≠ p.1 := by
      intro hc; exact hu (by simp [hc])
    have hrest : u ∉ rest.map Prod.fst := fun hc => hu (by simp; right; simpa using hc)
    simp only [List.foldl_cons]
    rw [show completedStep (latest, ready) p
        = (if p.2.collect.isEmpty then eraseA latest p.1 else insertA latest p.1 p.2,
          ready ++ [(p.1, p.2.collect)]) from rfl]
    rw [ih _ _ hrest]
    by_cases hc : p.2.collect.isEmpty
    · simp [hc, findA_eraseA_ne latest p.1 u hne]
    · simp [hc, findA_insertA_ne latest p.1 u p.2 hne]

theorem completed_fold_latest (u : Uri) (fd : FileDiagnostics) :
    ∀ (files : List (Uri × FileDiagnostics)) latest ready,
      (files.map Prod.fst).Nodup → (u, fd) ∈ files →
      findA (files.foldl completedStep (latest, ready)).1 u
        = if fd.collect = [] then none else some fd := by
  intro files
  induction files with
  | nil => intro latest ready _ hmem; cases hmem
  | cons p rest ih =>
    intro latest ready hnd hmem
    have hnd' : p.1 ∉ rest.map Prod.fst ∧ (rest.map Prod.fst).Nodup := by
      rw [List.map_cons] at hnd
      exact List.nodup_cons.1 hnd
    rcases List.mem_cons.1 hmem with hmem | hmem
    · have hp1 : p.1 = u := by rw [← hmem]
      simp only [List.foldl_cons]
      rw [completed_fold_latest_notmem u rest _ _ (hp1 ▸ hnd'.1)]
      rw [show completedStep (latest, ready) p
          = (if p.2.collect.isEmpty then eraseA latest p.1 else insertA latest p.1 p.2,
            ready ++ [(p.1, p.2.collect)]) from rfl]
      have hp2 : p.2 = fd := by rw [← hmem]
      rw [hp1, hp2]
      by_cases hc : fd.collect = []
      · simp [hc, findA_eraseA]
      · simp [List.isEmpty_iff, hc, findA_insertA_self]
    · simp only [List.foldl_cons]
      exact ih _ _ hnd'.2 hmem

/-- C3, counterexample to the claim as stated: after a semantic-child
`geterr` entry receives its only expected kind, its `StepProgress` is
saturated (every step done) yet the entry stays pending and nothing has
been emitted (`ready` is empty) — the aggregator does not emit when a
pending entry's `StepProgress` saturates. -/
theorem diagnostics_saturation_counterexample :
    findA ((DiagnosticsState.emptyState.registerPending .Semantic 0).handleEvent .Semantic
        (.Report 7 [3] (some 0) .Semantic)).pending (.Semantic, 0)
      = some ⟨[(7, ⟨[], [3], []⟩)], ⟨⟨false, true⟩, ⟨true, true⟩, ⟨false, true⟩⟩⟩ ∧
    ((DiagnosticsState.emptyState.registerPending .Semantic 0).handleEvent .Semantic
        (.Report 7 [3] (some 0) .Semantic)).ready = [] := by
  decide

/-- C3, corrected.  A report matched to a pending entry only buffers and
marks progress — it emits nothing, even when it saturates the entry's
`StepProgress`.  Emission for a tracked entry happens when a
`requestCompleted` releases it: each touched URI's emitted list is
exactly `syntax ++ semantic ++ suggestion` of that entry's buffers, the
entry is removed, and per URI the cached state is dropped when the
combined list is empty and replaced by the entry's merged per-kind state
otherwise. -/
theorem diagnostics_completed_emission :
    (∀ fd : FileDiagnostics,
      fd.collect = fd.syntaxDiags ++ fd.semanticDiags ++ fd.suggestionDiags) ∧
    (∀ (st : DiagnosticsState) (server : ServerKind) (uri : Uri) (ds : List Diag)
        (seq : Nat) (kind : DiagnosticsKind) (e : PendingDiagnosticsEntry),
      findA st.pending (server, seq) = some e →
      (st.handleEvent server (.Report uri ds (some seq) kind)).ready = st.ready) ∧
    (∀ (st : DiagnosticsState) (server : ServerKind) (seq : Nat)
        (e : PendingDiagnosticsEntry),
      findA st.pending (server, seq) = some e →
      (st.handleEvent server (.Completed seq)).ready
          = st.ready ++ e.files.map (fun p => (p.1, p.2.collect)) ∧
      findA (st.handleEvent server (.Completed seq)).pending (server, seq) = none ∧
      ((e.files.map Prod.fst).Nodup →
        ∀ (u : Uri) (fd : FileDiagnostics), (u, fd) ∈ e.files →
          findA (st.handleEvent server (.Completed seq)).latest u
            = if fd.collect = [] then none else some fd)) := by
  refine ⟨fun fd => rfl, ?_, ?_⟩
  · intro st server uri ds seq kind e he
    simp [DiagnosticsState.handleEvent, he]
  · intro st server seq e he
    have hev : st.handleEvent server (.Completed seq)
        = { st with
              pending := eraseA st.pending (server, seq)
              orderSyntax := ((st.setOrder server (removeFirst (st.orderOf server)
                seq)).orderSyntax)
              orderSemantic := ((st.setOrder server (removeFirst (st.orderOf server)
                seq)).orderSemantic)
              latest := (e.files.foldl completedStep (st.latest, st.ready)).1
              ready := (e.files.foldl completedStep (st.latest, st.ready)).2
              workload := st.workload.addCompleted e.progress.finishOutstanding.1 } := by
      cases server <;>
        simp [DiagnosticsState.handleEvent, he, DiagnosticsState.setOrder,
          DiagnosticsState.orderOf]
    refine ⟨?_, ?_, ?_⟩
    · rw [hev]
      exact completed_fold_ready e.files st.latest st.ready
    · rw [hev]
      exact findA_eraseA st.pending (server, seq)
    · intro hnd u fd hmem
      rw [hev]
      exact completed_fold_latest u fd e.files st.latest st.ready hnd hmem


/-- C3, witness: `requestCompleted` releases the entry, emits the
combined `syntax ++ semantic ++ suggestion` list for the touched URI and
replaces the per-URI cache. -/
theorem diagnostics_completed_emission_witness :
    (wDiagState.handleEvent .Semantic (.Completed 0)).ready = [(7, [3])] ∧
    findA (wDiagState.handleEvent .Semantic (.Completed 0)).pending (.Semantic, 0)
      = none ∧
    findA (wDiagState.handleEvent .Semantic (.Completed 0)).latest 7
      = some ⟨[], [3], []⟩ := by
  have h := diagnostics_completed_emission.2.2 wDiagState .Semantic 0
    ⟨[(7, ⟨[], [3], []⟩)], ⟨⟨false, true⟩, ⟨true, true⟩, ⟨false, true⟩⟩⟩ (by decide)
  refine ⟨?_, h.2.1, ?_⟩
  · rw [h.1]; decide
  · have := h.2.2 (by decide) 7 ⟨[], [3], []⟩ (by decide)
    rw [this]; decide

/-! ## Document metrics (C7) and span conversion (C6) -/

theorem utf16Len_cons (c : Char) (l : List Char) :
    utf16Len (c :: l) = charUtf16 c + utf16Len l := by
  simp [utf16Len]

theorem utf16Len_append (l₁ l₂ : List Char) :
    utf16Len (l₁ ++ l₂) = utf16Len l₁ + utf16Len l₂ := by
  simp [utf16Len]

theorem utf16Len_replicate_a : ∀ n : Nat, utf16Len (List.replicate n 'a') = n := by
  intro n
  induction n with
  | zero => rfl
  | succ n ih =>
    rw [List.replicate_succ, utf16Len_cons, ih, show charUtf16 'a' = 1 from rfl]
    omega

theorem scanLines_replicate_a (rest : List Char) :
    ∀ (n lsb lsu ab au : Nat),
      scanLines (List.replicate n 'a' ++ rest) lsb lsu ab au
        = scanLines rest lsb lsu (ab + n) (au + n) := by
  intro n
  induction n with
  | zero => intro lsb lsu ab au; simp
  | succ n ih =>
    intro lsb lsu ab au
    rw [List.replicate_succ, List.cons_append,
      scanLines.eq_5 _ _ _ _ 'a' (List.replicate n 'a' ++ rest)
        (fun _ h => absurd h (by decide)) (fun h => absurd h (by decide))
        (fun h => absurd h (by decide)),
      show ('a').utf8Size = 1 from rfl, show charUtf16 'a' = 1 from rfl, ih,
      show ab + 1 + n = ab + (n + 1) from by omega,
      show au + 1 + n = au + (n + 1) from by omega]

theorem scanLines_sum :
    ∀ (text : List Char) (lsb lsu ab au : Nat), (ab = 0 → au = 0) →
      lsu + au + utf16Len text ≤ 2 ^ 32 - 1 →
      ((scanLines text lsb lsu ab au).1.map fun x => x.1.content_utf16 + x.2).sum
          = au + utf16Len text ∧
      (scanLines text lsb lsu ab au).2 = lsu + au + utf16Len text := by
  intro text lsb lsu ab au
  induction text, lsb, lsu, ab, au using scanLines.induct with
  | case1 lsb lsu au =>
    intro h _
    rw [h rfl, scanLines.eq_1]
    simp [utf16Len]
  | case2 lsb lsu ab au hab =>
    intro _ hb
    rw [show utf16Len ([] : List Char) = 0 from rfl] at hb ⊢
    rw [scanLines.eq_1, if_neg hab]
    dsimp only
    rw [List.map_cons, List.map_nil, List.sum_cons, List.sum_nil]
    dsimp only
    exact ⟨by omega, by omega⟩
  | case3 rest lsb lsu ab au ih =>
    intro _ hb
    rw [utf16Len_cons, utf16Len_cons, show charUtf16 '\r' = 1 from rfl,
      show charUtf16 '\n' = 1 from rfl] at hb ⊢
    have ih' := ih (fun _ => rfl) (by omega)
    rw [scanLines.eq_2]
    dsimp only
    rw [List.map_cons, List.sum_cons, ih'.1, ih'.2]
    dsimp only
    exact ⟨by omega, by omega⟩
  | case4 rest lsb lsu ab au hguard ih =>
    intro _ hb
    rw [utf16Len_cons, show charUtf16 '\r' = 1 from rfl] at hb ⊢
    have ih' := ih (fun _ => rfl) (by omega)
    rw [scanLines.eq_3 _ _ _ _ rest hguard]
    dsimp only
    rw [List.map_cons, List.sum_cons, ih'.1, ih'.2]
    dsimp only
    exact ⟨by omega, by omega⟩
  | case5 rest lsb lsu ab au ih =>
    intro _ hb
    rw [utf16Len_cons, show charUtf16 '\n' = 1 from rfl] at hb ⊢
    have ih' := ih (fun _ => rfl) (by omega)
    rw [scanLines.eq_4]
    dsimp only
    rw [List.map_cons, List.sum_cons, ih'.1, ih'.2]
    dsimp only
    exact ⟨by omega, by omega⟩
  | case6 c rest lsb lsu ab au hg1 hg2 hg3 ih =>
    intro _ hb
    rw [utf16Len_cons] at hb ⊢
    have ih' := ih (fun hc => absurd hc (by have := Char.utf8Size_pos c; omega)) (by omega)
    rw [scanLines.eq_5 _ _ _ _ c rest hg1 hg2 hg3, ih'.1, ih'.2]
    exact ⟨by omega, by omega⟩

theorem scanLines_ne_nil :
    ∀ (text : List Char) (lsb lsu ab au : Nat), (ab ≠ 0 ∨ text ≠ []) →
      (scanLines text lsb lsu ab au).1 ≠ [] := by
  intro text lsb lsu ab au
  induction text, lsb, lsu, ab, au using scanLines.induct with
  | case1 lsb lsu au =>
    intro h
    rcases h with h | h
    · exact absurd rfl h
    · exact absurd rfl h
  | case2 lsb lsu ab au hab =>
    intro _
    rw [scanLines.eq_1]
    simp [hab]
  | case3 rest lsb lsu ab au ih =>
    intro _
    rw [scanLines.eq_2]
    simp
  | case4 rest lsb lsu ab au hguard ih =>
    intro _
    rw [scanLines.eq_3 _ _ _ _ rest hguard]
    simp
  | case5 rest lsb lsu ab au ih =>
    intro _
    rw [scanLines.eq_4]
    simp
  | case6 c rest lsb lsu ab au hg1 hg2 hg3 ih =>
    intro _
    have := ih (Or.inl (by have := Char.utf8Size_pos c; omega))
    rw [scanLines.eq_5 _ _ _ _ c rest hg1 hg2 hg3]
    exact this

theorem scanLines_entries_bound :
    ∀ (text : List Char) (lsb lsu ab au : Nat), (ab = 0 → au = 0) →
      lsu + au + utf16Len text ≤ 2 ^ 32 - 1 →
      ∀ mn ∈ (scanLines text lsb lsu ab au).1,
        mn.1.start_utf16 + mn.1.content_utf16 ≤ lsu + au + utf16Len text := by
  intro text lsb lsu ab au
  induction text, lsb, lsu, ab, au using scanLines.induct with
  | case1 lsb lsu au =>
    intro h _ mn hmn
    rw [h rfl, scanLines.eq_1] at hmn
    simp at hmn
  | case2 lsb lsu ab au hab =>
    intro _ _ mn hmn
    rw [scanLines.eq_1, if_neg hab] at hmn
    dsimp only at hmn
    rw [List.mem_singleton] at hmn
    subst hmn
    dsimp only
    rw [show utf16Len ([] : List Char) = 0 from rfl]
    omega
  | case3 rest lsb lsu ab au ih =>
    intro _ hb mn hmn
    rw [utf16Len_cons, utf16Len_cons, show charUtf16 '\r' = 1 from rfl,
      show charUtf16 '\n' = 1 from rfl] at hb ⊢
    rw [scanLines.eq_2] at hmn
    dsimp only at hmn
    rcases List.mem_cons.1 hmn with hmn | hmn
    · subst hmn
      dsimp only
      omega
    · have := ih (fun _ => rfl) (by omega) mn hmn
      omega
  | case4 rest lsb lsu ab au hguard ih =>
    intro _ hb mn hmn
    rw [utf16Len_cons, show charUtf16 '\r' = 1 from rfl] at hb ⊢
    rw [scanLines.eq_3 _ _ _ _ rest hguard] at hmn
    dsimp only at hmn
    rcases List.mem_cons.1 hmn with hmn | hmn
    · subst hmn
      dsimp only
      omega
    · have := ih (fun _ => rfl) (by omega) mn hmn
      omega
  | case5 rest lsb lsu ab au ih =>
    intro _ hb mn hmn
    rw [utf16Len_cons, show charUtf16 '\n' = 1 from rfl] at hb ⊢
    rw [scanLines.eq_4] at hmn
    dsimp only at hmn
    rcases List.mem_cons.1 hmn with hmn | hmn
    · subst hmn
      dsimp only
      omega
    · have := ih (fun _ => rfl) (by omega) mn hmn
      omega
  | case6 c rest lsb lsu ab au hg1 hg2 hg3 ih =>
    intro _ hb mn hmn
    rw [utf16Len_cons] at hb ⊢
    rw [scanLines.eq_5 _ _ _ _ c rest hg1 hg2 hg3] at hmn
    have := ih (fun hc => absurd hc (by have := Char.utf8Size_pos c; omega)) (by omega)
      mn hmn
    omega

theorem recomputeMetrics_total (text : List Char) (hb : utf16Len text < 2 ^ 32) :
    (recomputeMetrics text).2 = utf16Len text := by
  have h := scanLines_sum text 0 0 0 0 (fun _ => rfl) (by omega)
  simpa [recomputeMetrics] using h.2

theorem recomputeMetrics_trailing (text : List Char) (hb : utf16Len text < 2 ^ 32)
    (h : endsWithTerm text = true) :
    (recomputeMetrics text).1
      = (scanLines text 0 0 0 0).1.map Prod.fst
          ++ [⟨utf8Len text, utf16Len text, 0, 0⟩] := by
  have hne : text ≠ [] := by
    intro hc
    subst hc
    simp [endsWithTerm] at h
  have h2 : (scanLines text 0 0 0 0).1 ≠ [] := scanLines_ne_nil text 0 0 0 0 (Or.inr hne)
  have h3 : ((scanLines text 0 0 0 0).1.map Prod.fst).isEmpty = false := by
    simp [List.isEmpty_iff, h2]
  have h4 := recomputeMetrics_total text hb
  simp only [recomputeMetrics] at h4 ⊢
  simp [h3, h, h4]

theorem recomputeMetrics_bound (text : List Char) (hb : utf16Len text < 2 ^ 32) :
    ∀ lm ∈ (recomputeMetrics text).1,
      lm.start_utf16 + lm.content_utf16 ≤ utf16Len text := by
  intro lm hlm
  have hents := scanLines_entries_bound text 0 0 0 0 (fun _ => rfl) (by omega)
  have hsum := scanLines_sum text 0 0 0 0 (fun _ => rfl) (by omega)
  simp only [recomputeMetrics] at hlm
  split_ifs at hlm with h1 h2
  · rw [List.mem_singleton] at hlm
    subst hlm
    simp [LineMetrics.emptyMetric]
  · rcases List.mem_append.1 hlm with hlm | hlm
    · rcases List.mem_map.1 hlm with ⟨mn, hmn, hlm⟩
      subst hlm
      have := hents mn hmn
      omega
    · rw [List.mem_singleton] at hlm
      subst hlm
      dsimp only
      rw [hsum.2]
      omega
  · rcases List.mem_map.1 hlm with ⟨mn, hmn, hlm⟩
    subst hlm
    have := hents mn hmn
    omega

theorem metricsInv_recompute (text : List Char) (version : Option Int)
    (hb : utf16Len text < 2 ^ 32) :
    MetricsInv ⟨text, (recomputeMetrics text).1, (recomputeMetrics text).2, version⟩ := by
  refine ⟨?_, recomputeMetrics_total text hb, rfl,
    fun h => recomputeMetrics_trailing text hb h⟩
  simpa using (scanLines_sum text 0 0 0 0 (fun _ => rfl) (by omega)).1

theorem metricsInv_applyChange (st : DocumentState) (change : ContentChange)
    (hb : utf16Len (st.applyChange change).text < 2 ^ 32)
    (h : MetricsInv st) : MetricsInv (st.applyChange change) := by
  cases hr : change.range with
  | none =>
    have happ : st.applyChange change
        = ⟨change.text, (recomputeMetrics change.text).1,
            (recomputeMetrics change.text).2, st.version⟩ := by
      simp [DocumentState.applyChange, hr]
    rw [happ] at hb ⊢
    exact metricsInv_recompute change.text st.version hb
  | some range =>
    by_cases hob : st.byteIndex range.start > st.byteIndex range.«end»
        ∨ st.byteIndex range.«end» > utf8Len st.text
    · have happ : st.applyChange change = st := by
        simp [DocumentState.applyChange, hr, hob]
      rw [happ]
      exact h
    · have happ : st.applyChange change
          = ⟨takeBytes st.text (st.byteIndex range.start) ++ change.text
                ++ dropBytes st.text (st.byteIndex range.«end»),
              (recomputeMetrics (takeBytes st.text (st.byteIndex range.start)
                ++ change.text ++ dropBytes st.text (st.byteIndex range.«end»))).1,
              (recomputeMetrics (takeBytes st.text (st.byteIndex range.start)
                ++ change.text ++ dropBytes st.text (st.byteIndex range.«end»))).2,
              st.version⟩ := by
        simp [DocumentState.applyChange, hr, hob]
      rw [happ] at hb ⊢
      exact metricsInv_recompute _ st.version hb

theorem metricsInv_foldl (changes : List ContentChange) :
    ∀ st : DocumentState, MetricsInv st →
      (∀ pre ch post, changes = pre ++ ch :: post →
        utf16Len ((pre.foldl DocumentState.applyChange st).applyChange ch).text
          < 2 ^ 32) →
      MetricsInv (changes.foldl DocumentState.applyChange st) := by
  induction changes with
  | nil => intro st h _; exact h
  | cons c rest ih =>
    intro st h hb
    have h1 : utf16Len (st.applyChange c).text < 2 ^ 32 := hb [] c rest rfl
    have h2 := metricsInv_applyChange st c h1 h
    refine ih (st.applyChange c) h2 ?_
    intro pre ch post hpre
    exact hb (c :: pre) ch post (by rw [hpre]; rfl)

theorem DocumentState.new_text (text : List Char) (version : Option Int) :
    (DocumentState.new text version).text = text := rfl

theorem DocumentState.new_total (text : List Char) (version : Option Int) :
    (DocumentState.new text version).total_utf16 = (scanLines text 0 0 0 0).2 := rfl

/-- C7, counterexample to the claim as stated: a document of `2^32`
one-unit characters on a single line.  `content.encode_utf16().count()
as u32` truncates the line's count to 0 and the saturating `u32` cursor
stores a total of 0, while the document's UTF-16 length is `2^32`, so
the recomputed metrics violate the claimed invariant right after
`open`. -/
theorem metrics_invariant_counterexample :
    ¬ MetricsInv (DocumentState.new hugeText none) := by
  have hscan : (scanLines hugeText 0 0 0 0).2 = 0 := by
    have hsplit : hugeText = List.replicate (2 ^ 32) 'a' ++ [] :=
      (List.append_nil (List.replicate (2 ^ 32) 'a')).symm
    rw [hsplit, scanLines_replicate_a, scanLines.eq_1, if_neg (by norm_num)]
    norm_num
  have hlen : utf16Len hugeText = 2 ^ 32 := by
    have hrepl : hugeText = List.replicate (2 ^ 32) 'a' := rfl
    rw [hrepl, utf16Len_replicate_a]
  intro h
  have h2 := h.2.1
  rw [DocumentState.new_total, DocumentState.new_text, hscan, hlen] at h2
  norm_num at h2

/-- C7, corrected.  For documents that stay below the `u32` limit — the
opened text and the result of every applied change have UTF-16 length
below `2^32`, so the truncating `as u32` cast and the saturating cursor
are exact — the recomputed line metrics satisfy the claimed invariant:
summing `content_utf16` plus each line's terminator width over the
scanned entries equals the document's UTF-16 length, that sum is the
stored `total_utf16`, and a text ending in a line terminator gets an
extra empty trailing metric positioned at the end of the text. -/
theorem metrics_invariant :
    (∀ (text : List Char) (version : Option Int), utf16Len text < 2 ^ 32 →
      MetricsInv (DocumentState.new text version)) ∧
    (∀ (st : DocumentState) (change : ContentChange),
      utf16Len (st.applyChange change).text < 2 ^ 32 →
      MetricsInv st → MetricsInv (st.applyChange change)) ∧
    (∀ (store : DocumentStore) (uri : String) (text : List Char) (version : Option Int)
        (st : DocumentState), utf16Len text < 2 ^ 32 →
      findA (store.open uri text version).docs uri = some st → MetricsInv st) ∧
    (∀ (store : DocumentStore) (uri u : String) (changes : List ContentChange)
        (version : Option Int) (st : DocumentState),
      (∀ u' st', findA store.docs u' = some st' → MetricsInv st') →
      (∀ st0, findA store.docs uri = some st0 →
        ∀ pre ch post, changes = pre ++ ch :: post →
          utf16Len ((pre.foldl DocumentState.applyChange st0).applyChange ch).text
            < 2 ^ 32) →
      findA (store.applyChanges uri changes version).docs u = some st →
      MetricsInv st) := by
  refine ⟨fun text version hb => metricsInv_recompute text version hb,
    fun st change hb h => metricsInv_applyChange st change hb h, ?_, ?_⟩
  · intro store uri text version st hb hfind
    rw [show (store.open uri text version).docs
        = insertA store.docs uri (DocumentState.new text version) from rfl,
      findA_insertA_self] at hfind
    cases hfind
    exact metricsInv_recompute text version hb
  · intro store uri u changes version st hinv hb hfind
    cases hf : findA store.docs uri with
    | none =>
      rw [show store.applyChanges uri changes version
          = store by simp [DocumentStore.applyChanges, hf]] at hfind
      exact hinv u st hfind
    | some st0 =>
      have hdocs : (store.applyChanges uri changes version).docs
          = insertA store.docs uri
              { changes.foldl DocumentState.applyChange st0 with version := version } := by
        simp [DocumentStore.applyChanges, hf]
      rw [hdocs] at hfind
      by_cases hu : u = uri
      · subst hu
        rw [findA_insertA_self] at hfind
        cases hfind
        exact metricsInv_foldl changes st0 (hinv u st0 hf) (hb st0 hf)
      · rw [findA_insertA_ne store.docs uri u _ hu] at hfind
        exact hinv u st hfind

/-- C7, witness: the invariant after opening a CRLF/LF document and
applying a full-replacement change, both far below the `u32` limit. -/
theorem metrics_invariant_witness :
    MetricsInv (DocumentState.applyChange (DocumentState.new "ab\r\ncd\n".toList none)
      ⟨none, "x𝔘y\n".toList⟩) :=
  metrics_invariant.2.1 (DocumentState.new "ab\r\ncd\n".toList none)
    ⟨none, "x𝔘y\n".toList⟩ (by decide)
    (metrics_invariant.1 "ab\r\ncd\n".toList none (by decide))

/-! ## Span-for-range against the spec formula (C6) -/

theorem DocumentState.new_metrics (text : List Char) (version : Option Int) :
    (DocumentState.new text version).line_metrics = (recomputeMetrics text).1 := rfl

theorem clampLineIdx_eq (ms : List LineMetrics) (line : Nat) :
    clampLineIdx ms line = min line (ms.length - 1) := by
  rw [clampLineIdx]
  split_ifs with h
  · rw [List.isEmpty_iff] at h
    subst h
    simp
  · rfl

theorem getD_mem {α : Type} (l : List α) (d : α) :
    ∀ i, i < l.length → l.getD i d ∈ l := by
  induction l with
  | nil => intro i h; simp at h
  | cons a t ih =>
    intro i h
    cases i with
    | zero => simp
    | succ n =>
      rw [List.getD_cons_succ]
      exact List.mem_cons_of_mem a (ih n (by simpa using h))

theorem getD_bound (ms : List LineMetrics) (i : Nat)
    (h : ∀ lm ∈ ms, lm.start_utf16 + lm.content_utf16 < 2 ^ 32)
    (hd : i < ms.length ∨ ms = []) :
    (ms.getD i LineMetrics.emptyMetric).start_utf16
      + (ms.getD i LineMetrics.emptyMetric).content_utf16 < 2 ^ 32 := by
  rcases hd with hd | hd
  · exact h _ (getD_mem ms LineMetrics.emptyMetric i hd)
  · subst hd
    simp [LineMetrics.emptyMetric]

theorem utf16Offset_spec (st : DocumentState) (p : Position)
    (h : ∀ lm ∈ st.line_metrics, lm.start_utf16 + lm.content_utf16 < 2 ^ 32) :
    st.utf16Offset p = specOffset st.line_metrics p := by
  simp only [DocumentState.utf16Offset, specOffset, clampLineIdx_eq]
  have hd : min p.line (st.line_metrics.length - 1) < st.line_metrics.length
      ∨ st.line_metrics = [] := by
    cases hms : st.line_metrics with
    | nil => exact Or.inr rfl
    | cons a t => left; simp only [List.length_cons]; omega
  have hb := getD_bound st.line_metrics (min p.line (st.line_metrics.length - 1)) h hd
  omega

theorem textSpan_spec (st : DocumentState) (range : Range)
    (h : ∀ lm ∈ st.line_metrics, lm.start_utf16 + lm.content_utf16 < 2 ^ 32) :
    st.textSpan range
      = ⟨min (specOffset st.line_metrics range.start)
            (specOffset st.line_metrics range.«end»),
          max (specOffset st.line_metrics range.start)
              (specOffset st.line_metrics range.«end»)
            - min (specOffset st.line_metrics range.start)
                (specOffset st.line_metrics range.«end»)⟩ := by
  have hs := utf16Offset_spec st range.start h
  have he := utf16Offset_spec st range.«end» h
  simp only [DocumentState.textSpan, hs, he]
  split_ifs with hc
  · simp only [TextSpan.mk.injEq]
    omega
  · simp only [TextSpan.mk.injEq]
    omega

theorem spanForRange_eq_spec_of_bound (store : DocumentStore) (uri : String) (range : Range)
    (h : ∀ st, findA store.docs uri = some st →
      ∀ lm ∈ st.line_metrics, lm.start_utf16 + lm.content_utf16 < 2 ^ 32) :
    store.spanForRange uri range = spanForRangeSpec store uri range := by
  cases hf : findA store.docs uri with
  | none => simp [DocumentStore.spanForRange, spanForRangeSpec, hf]
  | some doc =>
    simp only [DocumentStore.spanForRange, spanForRangeSpec, hf, Option.map_some']
    rw [textSpan_spec doc range (h doc hf)]

theorem scanLines_hugeLineText :
    scanLines hugeLineText 0 0 0 0
      = ([(⟨0, 0, 2 ^ 32 - 2, 2 ^ 32 - 2⟩, 1), (⟨2 ^ 32 - 1, 2 ^ 32 - 1, 1, 1⟩, 0)],
          2 ^ 32 - 1) := by
  have h1 : hugeLineText = List.replicate (2 ^ 32 - 2) 'a' ++ '\n' :: ['b'] := rfl
  rw [h1, scanLines_replicate_a, scanLines.eq_4]
  rw [scanLines.eq_5 _ _ _ _ 'b' [] (fun _ h => absurd h (by decide))
      (fun h => absurd h (by decide)) (fun h => absurd h (by decide)),
    show ('b').utf8Size = 1 from rfl, show charUtf16 'b' = 1 from rfl,
    scanLines.eq_1, if_neg (by norm_num)]
  norm_num

theorem endsWithTerm_hugeLineText : endsWithTerm hugeLineText = false := by
  have h1 : hugeLineText.getLast? = some 'b' := by
    have h2 : hugeLineText = (List.replicate (2 ^ 32 - 2) 'a' ++ ['\n']) ++ ['b'] :=
      (List.append_assoc (List.replicate (2 ^ 32 - 2) 'a') ['\n'] ['b']).symm
    rw [h2, List.getLast?_concat]
  unfold endsWithTerm
  rw [h1]
  decide

theorem recomputeMetrics_hugeLineText :
    (recomputeMetrics hugeLineText).1
      = [⟨0, 0, 2 ^ 32 - 2, 2 ^ 32 - 2⟩, ⟨2 ^ 32 - 1, 2 ^ 32 - 1, 1, 1⟩] := by
  simp only [recomputeMetrics, scanLines_hugeLineText, endsWithTerm_hugeLineText,
    List.map_cons, List.map_nil, List.isEmpty_cons, Bool.false_eq_true, if_false]

theorem utf16Offset_line_two (st : DocumentState) (m1 m2 : LineMetrics) (p : Position)
    (hm : st.line_metrics = [m1, m2]) (hp : p.line = 1) :
    st.utf16Offset p = (m2.start_utf16 + min p.character m2.content_utf16) % 2 ^ 32 := by
  simp only [DocumentState.utf16Offset, clampLineIdx_eq, hm, hp]
  rfl

theorem specOffset_line_two (m1 m2 : LineMetrics) (p : Position) (hp : p.line = 1) :
    specOffset [m1, m2] p = m2.start_utf16 + min p.character m2.content_utf16 := by
  simp only [specOffset, hp]
  rfl

theorem textSpan_minmax (st : DocumentState) (range : Range) :
    st.textSpan range
      = ⟨min (st.utf16Offset range.start) (st.utf16Offset range.«end»),
          max (st.utf16Offset range.start) (st.utf16Offset range.«end»)
            - min (st.utf16Offset range.start) (st.utf16Offset range.«end»)⟩ := by
  simp only [DocumentState.textSpan]
  split_ifs with hc
  · simp only [TextSpan.mk.injEq]
    omega
  · simp only [TextSpan.mk.injEq]
    omega

/-- C6, counterexample to the claim as stated: on `hugeLineText` the
second line's `start_utf16` saturates at `2^32 - 1`, so for a range on
that line the unchecked `u32` add in `utf16_offset` wraps the end
position's offset to `0` and `span_for_range` answers `(0, 2^32 - 1)`,
while the claimed formula `(min(start', end'), |end' - start'|)` over the
unwrapped offsets gives `(2^32 - 1, 1)`. -/
theorem span_for_range_counterexample :
    hugeStore.spanForRange "file:///big.ts" hugeRange = some ⟨0, 2 ^ 32 - 1⟩ ∧
    spanForRangeSpec hugeStore "file:///big.ts" hugeRange = some ⟨2 ^ 32 - 1, 1⟩ ∧
    hugeStore.spanForRange "file:///big.ts" hugeRange
      ≠ spanForRangeSpec hugeStore "file:///big.ts" hugeRange := by
  have hfind : findA hugeStore.docs "file:///big.ts"
      = some (DocumentState.new hugeLineText none) := by
    have hdocs : hugeStore.docs
        = insertA ([] : List (String × DocumentState)) "file:///big.ts"
            (DocumentState.new hugeLineText none) := rfl
    rw [hdocs, findA_insertA_self]
  have hm : (DocumentState.new hugeLineText none).line_metrics
      = [⟨0, 0, 2 ^ 32 - 2, 2 ^ 32 - 2⟩, ⟨2 ^ 32 - 1, 2 ^ 32 - 1, 1, 1⟩] := by
    rw [DocumentState.new_metrics, recomputeMetrics_hugeLineText]
  have ho1 : (DocumentState.new hugeLineText none).utf16Offset ⟨1, 0⟩ = 2 ^ 32 - 1 := by
    rw [utf16Offset_line_two _ _ _ _ hm rfl]
    dsimp only
    omega
  have ho2 : (DocumentState.new hugeLineText none).utf16Offset ⟨1, 1⟩ = 0 := by
    rw [utf16Offset_line_two _ _ _ _ hm rfl]
    dsimp only
    omega
  have hprog : hugeStore.spanForRange "file:///big.ts" hugeRange
      = some ⟨0, 2 ^ 32 - 1⟩ := by
    simp only [DocumentStore.spanForRange, hfind, Option.map_some']
    rw [textSpan_minmax, show hugeRange.start = (⟨1, 0⟩ : Position) from rfl,
      show hugeRange.«end» = (⟨1, 1⟩ : Position) from rfl, ho1, ho2]
    norm_num
  have hs1 : specOffset [⟨0, 0, 2 ^ 32 - 2, 2 ^ 32 - 2⟩, ⟨2 ^ 32 - 1, 2 ^ 32 - 1, 1, 1⟩]
      ⟨1, 0⟩ = 2 ^ 32 - 1 := by
    rw [specOffset_line_two _ _ _ rfl]
    dsimp only
    omega
  have hs2 : specOffset [⟨0, 0, 2 ^ 32 - 2, 2 ^ 32 - 2⟩, ⟨2 ^ 32 - 1, 2 ^ 32 - 1, 1, 1⟩]
      ⟨1, 1⟩ = 2 ^ 32 := by
    rw [specOffset_line_two _ _ _ rfl]
    dsimp only
    omega
  have hspec : spanForRangeSpec hugeStore "file:///big.ts" hugeRange
      = some ⟨2 ^ 32 - 1, 1⟩ := by
    simp only [spanForRangeSpec, hfind, Option.map_some']
    rw [show hugeRange.start = (⟨1, 0⟩ : Position) from rfl,
      show hugeRange.«end» = (⟨1, 1⟩ : Position) from rfl, hm, hs1, hs2]
    norm_num
  refine ⟨hprog, hspec, ?_⟩
  rw [hprog, hspec]
  decide

/-- C6, corrected.  `span_for_range` answers `none` exactly for URIs that
are not opened; on any store whose found snapshot keeps every line
metric's `start_utf16 + content_utf16` below `2^32` — in particular any
snapshot freshly opened from a text of UTF-16 length below `2^32`, where
the unchecked `u32` add in `utf16_offset` cannot wrap — it converts each
position by clamping the line to the last metric and the character to
that line's `content_utf16`, maps it to `start_utf16 + min(character,
content_utf16)`, and returns the span `(min(start', end'),
|end' - start'|)` over the two converted offsets. -/
theorem span_for_range_spec :
    (∀ (store : DocumentStore) (uri : String) (range : Range),
      store.spanForRange uri range = none ↔ findA store.docs uri = none) ∧
    (∀ (store : DocumentStore) (uri : String) (range : Range),
      (∀ st, findA store.docs uri = some st →
        ∀ lm ∈ st.line_metrics, lm.start_utf16 + lm.content_utf16 < 2 ^ 32) →
      store.spanForRange uri range = spanForRangeSpec store uri range) ∧
    (∀ (base : DocumentStore) (uri : String) (text : List Char) (version : Option Int)
        (range : Range), utf16Len text < 2 ^ 32 →
      (base.open uri text version).spanForRange uri range
        = spanForRangeSpec (base.open uri text version) uri range) := by
  refine ⟨?_, fun store uri range h => spanForRange_eq_spec_of_bound store uri range h, ?_⟩
  · intro store uri range
    cases hf : findA store.docs uri with
    | none => simp [DocumentStore.spanForRange, hf]
    | some doc => simp [DocumentStore.spanForRange, hf]
  · intro base uri text version range hb
    apply spanForRange_eq_spec_of_bound
    intro st hf lm hlm
    rw [show (base.open uri text version).docs
        = insertA base.docs uri (DocumentState.new text version) from rfl,
      findA_insertA_self] at hf
    cases hf
    rw [DocumentState.new_metrics] at hlm
    have := recomputeMetrics_bound text hb lm hlm
    omega

/-- C6, witness: the program span equals the spec formula on a freshly
opened two-line document, and an unopened URI maps to `none`. -/
theorem span_for_range_spec_witness :
    (DocumentStore.empty.open "file:///a.ts" "ab\ncd".toList none).spanForRange
        "file:///a.ts" ⟨⟨0, 1⟩, ⟨1, 2⟩⟩
      = spanForRangeSpec (DocumentStore.empty.open "file:///a.ts" "ab\ncd".toList none)
          "file:///a.ts" ⟨⟨0, 1⟩, ⟨1, 2⟩⟩ ∧
    (DocumentStore.empty.spanForRange "file:///a.ts" ⟨⟨0, 0⟩, ⟨0, 0⟩⟩ = none ↔
      findA DocumentStore.empty.docs "file:///a.ts" = none) :=
  ⟨span_for_range_spec.2.2 DocumentStore.empty "file:///a.ts" "ab\ncd".toList none
      ⟨⟨0, 1⟩, ⟨1, 2⟩⟩ (by decide),
    span_for_range_spec.1 DocumentStore.empty "file:///a.ts" ⟨⟨0, 0⟩, ⟨0, 0⟩⟩⟩
